import Mathlib

/-!
Verification of the `permutations_iter` library: an iterative
Steinhaus-Johnson-Trotter (with Even's modification) permutation generator.

The embedding mirrors `src/lib.rs`.  Rust `Vec` indexing and `Vec::swap`
panic on out-of-bounds accesses; we model a panic as `none` in an outer
`Option` layer.  `usize` casts of possibly negative `isize` values wrap
modulo `2 ^ 64`, which `usize_cast` reproduces.
-/

/-- Checked write `l[i] = x`: fails (panics) when `i` is out of bounds. -/
def set? {α : Type} (l : List α) (i : Nat) (x : α) : Option (List α) :=
  if i < l.length then some (l.set i x) else none

/-- Indexing a `Vec` at an index computed by an `isize → usize` cast.  In
Rust the cast wraps modulo `2 ^ 64`, so a negative value lands strictly
above `isize::MAX`; a `Vec`'s length never exceeds `isize::MAX`, hence
indexing with a cast negative value always panics.  We therefore model
`v[(z as usize)]` as failing exactly when `z < 0` or `z ≥ length`. -/
def getI? {α : Type} (l : List α) (z : Int) : Option α :=
  if 0 ≤ z then l.get? z.toNat else none

/-- Checked write through a cast index, in the same model as `getI?`. -/
def setI? {α : Type} (l : List α) (z : Int) (x : α) : Option (List α) :=
  if 0 ≤ z then set? l z.toNat x else none

/-- Checked `Vec::swap` with cast indices: panics when either index is out
of bounds (in particular when the `isize` value was negative). -/
def swapI? {α : Type} (l : List α) (a b : Int) : Option (List α) := do
  let x ← getI? l a
  let y ← getI? l b
  some ((l.set a.toNat y).set b.toNat x)

/-- Embeds `inverse_perm` from `src/lib.rs`:
`let mut rev_perm = perm.clone(); for (ii, i) in perm.iter().enumerate() { rev_perm[*i] = ii; }`.
The write `rev_perm[*i] = ii` panics when `*i` is out of bounds. -/
def inverse_perm (perm : List Nat) : Option (List Nat) :=
  perm.enum.foldlM (fun rev_perm p => set? rev_perm p.2 p.1) perm

/-- The generator state: struct `Permutations` from `src/lib.rs`. -/
structure Permutations where
  n : Nat
  perm : List Nat
  direction : List Int
  is_initiated : Bool
  is_finished : Bool
deriving Repr, DecidableEq

/-- Embeds `Permutations::of`: `assert!(n > 0)` (a panic, i.e. `none`, for
`n == 0`), then the zero-filled state. -/
def Permutations.of (n : Nat) : Option Permutations :=
  if 0 < n then
    some { n := n
           perm := List.replicate n 0
           direction := List.replicate n 0
           is_initiated := false
           is_finished := false }
  else none

/-- Embeds `Permutations::get_n`. -/
def Permutations.get_n (s : Permutations) : Nat := s.n

/-- The initiation loop of `next`: `for i in 1..n { self.perm[i] = i; self.direction[i] = -1; }`,
given the list of loop indices. -/
def init_loop : List Nat → List Int → List Nat → Option (List Nat × List Int)
  | perm, dir, [] => some (perm, dir)
  | perm, dir, i :: is => do
      let perm' ← set? perm i i
      let dir' ← set? dir i (-1)
      init_loop perm' dir' is

/-- The scan loop of `next`: `for j in (0..n).rev() { ii = rev_perm[j]; id = self.direction[ii]; if id != 0 { i = j; break; } }`,
over the given (descending) list of loop indices, threading the mutable
`i`, `ii`, `id`. -/
def find_loop (rev_perm : List Nat) (direction : List Int) :
    Nat → Nat → Int → List Nat → Option (Nat × Nat × Int)
  | i, ii, id, [] => some (i, ii, id)
  | i, ii, id, j :: js => do
      let ii' ← rev_perm.get? j
      let id' ← direction.get? ii'
      if id' ≠ 0 then some (j, ii', id') else find_loop rev_perm direction i ii' id' js

/-- The direction-update loop of `next`:
`for j in (i + 1)..n { let ji = rev_perm[j]; self.direction[ji] = if ji < ii_new { 1 } else { -1 }; }`. -/
def update_loop (rev_perm : List Nat) (ii_new : Int) :
    List Int → List Nat → Option (List Int)
  | dir, [] => some dir
  | dir, j :: js => do
      let ji ← rev_perm.get? j
      let dir' ← set? dir ji (if (ji : Int) < ii_new then 1 else -1)
      update_loop rev_perm ii_new dir' js

/-- Embeds `<Permutations as Iterator>::next` from `src/lib.rs`.  The outer
`Option` is the panic layer (always `some` on reachable states, as proved
below); the inner `Option (List Nat)` is the iterator item. -/
def Permutations.next (s : Permutations) : Option (Option (List Nat) × Permutations) :=
  if s.is_initiated = false then
    match init_loop s.perm s.direction (List.range' 1 (s.n - 1)) with
    | none => none
    | some (perm, dir) =>
        some (some perm, { s with perm := perm, direction := dir, is_initiated := true })
  else if s.is_finished = true then
    some (none, s)
  else
    match inverse_perm s.perm with
    | none => none
    | some rev_perm =>
      match find_loop rev_perm s.direction s.n 0 0 (List.range s.n).reverse with
      | none => none
      | some (i, ii, id) =>
        if i = s.n then some (none, { s with is_finished := true })
        else
          let ii_new : Int := (ii : Int) + id
          match swapI? s.perm (ii : Int) ii_new with
          | none => none
          | some perm' =>
            match swapI? s.direction (ii : Int) ii_new with
            | none => none
            | some dir' =>
              let settle : Option Bool :=
                if ii_new = 0 then some true
                else if ii_new = (s.n : Int) - 1 then some true
                else
                  match getI? perm' (ii_new + id) with
                  | none => none
                  | some v => some (decide (i < v))
              match settle with
              | none => none
              | some b =>
                match (if b then setI? dir' ii_new 0 else some dir') with
                | none => none
                | some dir2 =>
                  match update_loop rev_perm ii_new dir2 (List.range' (i + 1) (s.n - (i + 1))) with
                  | none => none
                  | some dir3 =>
                    some (some perm', { s with perm := perm', direction := dir3 })

/-- One advance of the generator state (the panic case, which never occurs
on reachable states, leaves the state unchanged). -/
def stepState (s : Permutations) : Permutations :=
  match s.next with
  | some (_, s') => s'
  | none => s

/-- The item produced by one advance call on `s`. -/
def stepOut (s : Permutations) : Option (List Nat) :=
  match s.next with
  | some (o, _) => o
  | none => none

/-- The state after `k` advance calls starting from `s`. -/
def runState (s : Permutations) : Nat → Permutations
  | 0 => s
  | k + 1 => stepState (runState s k)

/-- The item produced by advance call number `k + 1` (0-indexed `k`). -/
def runOut (s : Permutations) (k : Nat) : Option (List Nat) :=
  stepOut (runState s k)

/-- The freshly constructed state for `n` (the value `Permutations.of n`
yields when `0 < n`). -/
def freshState (n : Nat) : Permutations :=
  { n := n
    perm := List.replicate n 0
    direction := List.replicate n 0
    is_initiated := false
    is_finished := false }

/-- A state an actual generator can be in: some number of advance calls
applied to a freshly constructed generator. -/
def Reachable (s : Permutations) : Prop :=
  ∃ n k, 0 < n ∧ runState (freshState n) k = s

/-! ### Basic facts about the checked list operations -/

theorem set?_eq_some_iff {α : Type} {l : List α} {i : Nat} {x : α} {r : List α} :
    set? l i x = some r ↔ i < l.length ∧ r = l.set i x := by
  unfold set?
  by_cases h : i < l.length <;> simp [h, eq_comm]

theorem getD_set_self {α : Type} (l : List α) {i : Nat} (h : i < l.length) (x d : α) :
    (l.set i x).getD i d = x := by
  simp [List.getD_eq_getElem?_getD, List.getElem?_set_self h]

theorem getD_set_ne {α : Type} (l : List α) {i j : Nat} (h : i ≠ j) (x d : α) :
    (l.set i x).getD j d = l.getD j d := by
  simp [List.getD_eq_getElem?_getD, List.getElem?_set_ne h]

theorem getD_eq_getElem {α : Type} (l : List α) {i : Nat} (h : i < l.length) (d : α) :
    l.getD i d = l[i] := by
  simp [List.getD_eq_getElem?_getD, List.getElem?_eq_getElem h]

theorem getI?_eq_some_getElem {α : Type} (l : List α) {z : Int} (h0 : 0 ≤ z)
    (h1 : z.toNat < l.length) : getI? l z = some (l[z.toNat]) := by
  simp [getI?, h0, List.get?_eq_getElem?, List.getElem?_eq_getElem h1]

theorem swapI?_eq_some {α : Type} (l : List α) {a b : Int} (ha0 : 0 ≤ a) (hb0 : 0 ≤ b)
    (ha : a.toNat < l.length) (hb : b.toNat < l.length) :
    swapI? l a b = some ((l.set a.toNat l[b.toNat]).set b.toNat l[a.toNat]) := by
  simp [swapI?, getI?_eq_some_getElem _ ha0 ha, getI?_eq_some_getElem _ hb0 hb]

theorem swapI?_eq_some_getD {α : Type} (l : List α) (d : α) {a b : Int} (ha0 : 0 ≤ a)
    (hb0 : 0 ≤ b) (ha : a.toNat < l.length) (hb : b.toNat < l.length) :
    swapI? l a b = some ((l.set a.toNat (l.getD b.toNat d)).set b.toNat (l.getD a.toNat d)) := by
  rw [swapI?_eq_some l ha0 hb0 ha hb, getD_eq_getElem _ ha d, getD_eq_getElem _ hb d]

/-! ### Transposing two entries of a list -/

theorem swap_length {α : Type} (l : List α) (a b : Nat) (x y : α) :
    ((l.set a x).set b y).length = l.length := by simp

theorem swap_getD_right {α : Type} (l : List α) {b : Nat} (a : Nat) (hb : b < l.length)
    (x y d : α) : ((l.set a y).set b x).getD b d = x := by
  apply getD_set_self
  simpa using hb

theorem swap_getD_left {α : Type} (l : List α) {a b : Nat} (hab : a ≠ b) (ha : a < l.length)
    (x y d : α) : ((l.set a y).set b x).getD a d = y := by
  rw [getD_set_ne _ (fun h => hab h.symm), getD_set_self _ ha]

theorem swap_getD_other {α : Type} (l : List α) {a b t : Nat} (hat : t ≠ a) (hbt : t ≠ b)
    (x y d : α) : ((l.set a y).set b x).getD t d = l.getD t d := by
  rw [getD_set_ne _ (fun h => hbt h.symm), getD_set_ne _ (fun h => hat h.symm)]

theorem swap_decomp {α : Type} (l : List α) {a b : Nat} (hab : a < b) (ha : a < l.length)
    (hb : b < l.length) :
    l = l.take a ++ l[a] :: ((l.drop (a + 1)).take (b - a - 1) ++ l[b] :: l.drop (b + 1)) ∧
    (l.set a l[b]).set b l[a] =
      l.take a ++ l[b] :: ((l.drop (a + 1)).take (b - a - 1) ++ l[a] :: l.drop (b + 1)) := by
  have hd1 : b - a - 1 < (l.drop (a + 1)).length := by
    rw [List.length_drop]; omega
  constructor
  · conv_lhs => rw [← List.take_append_drop a l]
    rw [← List.getElem_cons_drop l a ha]
    congr 1
    congr 1
    conv_lhs => rw [← List.take_append_drop (b - a - 1) (l.drop (a + 1))]
    congr 1
    rw [List.drop_drop]
    have hba : a + 1 + (b - a - 1) = b := by omega
    rw [hba, ← List.getElem_cons_drop l b hb]
  · rw [List.set_eq_take_cons_drop _ ha]
    rw [List.set_append_right _ _ (by simp [List.length_take]; omega)]
    have hlen : (l.take a).length = a := by simp [List.length_take]; omega
    congr 1
    have hbsub : b - (l.take a).length = (b - a - 1) + 1 := by rw [hlen]; omega
    rw [hbsub, List.set_cons_succ]
    congr 1
    rw [List.set_eq_take_cons_drop _ hd1]
    congr 1
    rw [List.drop_drop]
    have hba : a + 1 + (b - a - 1 + 1) = b + 1 := by omega
    rw [hba]

theorem swap_perm {α : Type} (l : List α) {a b : Nat} (ha : a < l.length) (hb : b < l.length) :
    ((l.set a l[b]).set b l[a]).Perm l := by
  rcases Nat.lt_trichotomy a b with hab | hab | hab
  · obtain ⟨h1, h2⟩ := swap_decomp l hab ha hb
    rw [h2]
    conv_rhs => rw [h1]
    apply List.Perm.append_left
    refine (List.Perm.cons _ List.perm_middle).trans ?_
    refine (List.Perm.swap _ _ _).trans ?_
    exact List.Perm.cons _ List.perm_middle.symm
  · subst hab
    have e : l.set a l[a] = l := by
      apply List.ext_getElem (by simp)
      intro i h1 h2
      rw [List.getElem_set]
      split
      · rename_i hia
        subst hia
        rfl
      · rfl
    rw [e, e]
  · obtain ⟨h1, h2⟩ := swap_decomp l hab hb ha
    have e : (l.set a l[b]).set b l[a] = (l.set b l[a]).set a l[b] := by
      apply List.set_comm
      omega
    rw [e, h2]
    conv_rhs => rw [h1]
    apply List.Perm.append_left
    refine (List.Perm.cons _ List.perm_middle).trans ?_
    refine (List.Perm.swap _ _ _).trans ?_
    exact List.Perm.cons _ List.perm_middle.symm

/-! ### The value-indexed view of a state

`s.perm` maps positions to values; `posIn s.perm v` recovers the position
of the value `v`, and `dvalOf s v` the direction flag owned by `v`.
`ellAt perm v` counts the values smaller than `v` sitting to the right of
`v`: the vector of these counts is the classical inversion-table digit
vector, and the generator enumerates it in reflected Gray order.  `rankP`
is the reflected-Gray rank of the digit vector. -/

/-- Position of the value `v` in the permutation. -/
def posIn (perm : List Nat) (v : Nat) : Nat := perm.indexOf v

/-- Number of values smaller than `v` lying strictly to the right of `v`. -/
def ellAt (perm : List Nat) (v : Nat) : Nat :=
  ((Finset.range v).filter (fun j => posIn perm v < posIn perm j)).card

/-- Sum of the digits of the values smaller than `v`; its parity is the
current sweep direction of digit `v` in the reflected Gray enumeration. -/
def psum (perm : List Nat) (v : Nat) : Nat := ∑ j ∈ Finset.range v, ellAt perm j

/-- The reflected digit of value `v`. -/
def digitAt (perm : List Nat) (v : Nat) : Nat :=
  if psum perm v % 2 = 0 then ellAt perm v else v - ellAt perm v

/-- Mixed-radix weight of digit `v` when there are `n` values: the product
`(v+2) * (v+3) * ... * n`. -/
def wtF (n v : Nat) : Nat := ∏ t ∈ Finset.Ico (v + 2) (n + 1), t

/-- Reflected-Gray rank of a permutation's digit vector. -/
def rankP (perm : List Nat) : Nat :=
  ∑ v ∈ Finset.range perm.length, digitAt perm v * wtF perm.length v

/-- Direction flag owned by the value `v`. -/
def dvalOf (s : Permutations) (v : Nat) : Int := s.direction.getD (posIn s.perm v) 0

/-- The running-state invariant of the generator (flags aside): the
permutation is a rearrangement of `0..n`, value `0` is settled, every
direction flag is in `{-1, 0, 1}`, and each value's flag agrees with the
reflected-Gray sweep of its digit (Even's invariant). -/
structure InvRun (s : Permutations) : Prop where
  hn : 0 < s.n
  plen : s.perm.length = s.n
  dlen : s.direction.length = s.n
  hperm : s.perm.Perm (List.range s.n)
  d0 : dvalOf s 0 = 0
  dmem : ∀ t, t < s.n →
    s.direction.getD t 0 = -1 ∨ s.direction.getD t 0 = 0 ∨ s.direction.getD t 0 = 1
  i4m : ∀ v, 0 < v → v < s.n → dvalOf s v = -1 →
    psum s.perm v % 2 = 0 ∧ ellAt s.perm v < v
  i4p : ∀ v, 0 < v → v < s.n → dvalOf s v = 1 →
    psum s.perm v % 2 = 1 ∧ 0 < ellAt s.perm v
  i40 : ∀ v, 0 < v → v < s.n → dvalOf s v = 0 →
    (psum s.perm v % 2 = 0 ∧ ellAt s.perm v = v) ∨
    (psum s.perm v % 2 = 1 ∧ ellAt s.perm v = 0)

/-! ### Position facts for a valid permutation -/

theorem perm_mem_iff {perm : List Nat} {n : Nat} (hp : perm.Perm (List.range n)) {v : Nat} :
    v ∈ perm ↔ v < n := by
  rw [hp.mem_iff, List.mem_range]

theorem perm_nodup {perm : List Nat} {n : Nat} (hp : perm.Perm (List.range n)) : perm.Nodup :=
  hp.nodup_iff.2 (List.nodup_range n)

theorem perm_length {perm : List Nat} {n : Nat} (hp : perm.Perm (List.range n)) :
    perm.length = n := by
  simpa using hp.length_eq

theorem posIn_lt {perm : List Nat} {n : Nat} (hp : perm.Perm (List.range n)) {v : Nat}
    (hv : v < n) : posIn perm v < n := by
  rw [← perm_length hp]
  exact List.indexOf_lt_length.2 ((perm_mem_iff hp).2 hv)

theorem getD_posIn {perm : List Nat} {n : Nat} (hp : perm.Perm (List.range n)) {v : Nat}
    (hv : v < n) : perm.getD (posIn perm v) 0 = v := by
  have h : posIn perm v < perm.length := by
    rw [perm_length hp]; exact posIn_lt hp hv
  rw [getD_eq_getElem _ h]
  exact List.getElem_indexOf h

theorem posIn_inj {perm : List Nat} {n : Nat} (hp : perm.Perm (List.range n)) {u v : Nat}
    (hu : u < n) (hv : v < n) (h : posIn perm u = posIn perm v) : u = v := by
  have h1 := getD_posIn hp hu
  rw [h, getD_posIn hp hv] at h1
  exact h1.symm

theorem posIn_getD {perm : List Nat} {n : Nat} (hp : perm.Perm (List.range n)) {t : Nat}
    (ht : t < n) : posIn perm (perm.getD t 0) = t := by
  have h : t < perm.length := by rw [perm_length hp]; exact ht
  rw [getD_eq_getElem _ h]
  exact List.indexOf_getElem (perm_nodup hp) t h

theorem getD_lt {perm : List Nat} {n : Nat} (hp : perm.Perm (List.range n)) {t : Nat}
    (ht : t < n) : perm.getD t 0 < n := by
  have h : t < perm.length := by rw [perm_length hp]; exact ht
  rw [getD_eq_getElem _ h]
  exact (perm_mem_iff hp).1 (List.getElem_mem h)

/-! ### Characterizations of the digit `ellAt` -/

theorem ellAt_le (perm : List Nat) (v : Nat) : ellAt perm v ≤ v := by
  unfold ellAt
  calc ((Finset.range v).filter _).card ≤ (Finset.range v).card := Finset.card_filter_le _ _
    _ = v := Finset.card_range v

theorem ellAt_eq_self_iff {perm : List Nat} (v : Nat) :
    ellAt perm v = v ↔ ∀ j, j < v → posIn perm v < posIn perm j := by
  unfold ellAt
  constructor
  · intro h j hj
    have hcard : (Finset.range v).card ≤
        ((Finset.range v).filter (fun j => posIn perm v < posIn perm j)).card := by
      rw [h, Finset.card_range]
    have heq := Finset.eq_of_subset_of_card_le (Finset.filter_subset _ _) hcard
    have hmem : j ∈ (Finset.range v).filter (fun j => posIn perm v < posIn perm j) := by
      rw [heq]; exact Finset.mem_range.2 hj
    exact (Finset.mem_filter.1 hmem).2
  · intro h
    rw [Finset.filter_true_of_mem (fun j hj => h j (Finset.mem_range.1 hj))]
    exact Finset.card_range v

theorem ellAt_eq_zero_iff {perm : List Nat} {n : Nat} (hp : perm.Perm (List.range n)) {v : Nat}
    (hv : v < n) : ellAt perm v = 0 ↔ ∀ j, j < v → posIn perm j < posIn perm v := by
  unfold ellAt
  rw [Finset.card_eq_zero, Finset.filter_eq_empty_iff]
  constructor
  · intro h j hj
    have hne : posIn perm j ≠ posIn perm v := fun he =>
      absurd (posIn_inj hp (lt_trans hj hv) hv he) (Nat.ne_of_lt hj)
    have := h (Finset.mem_range.2 hj)
    omega
  · intro h j hj
    have := h j (Finset.mem_range.1 hj)
    omega

theorem ellAt_lt_self_iff {perm : List Nat} {n : Nat} (hp : perm.Perm (List.range n)) {v : Nat}
    (hv : v < n) : ellAt perm v < v ↔ ∃ j, j < v ∧ posIn perm j < posIn perm v := by
  constructor
  · intro h
    by_contra hc
    push_neg at hc
    have : ellAt perm v = v := by
      rw [ellAt_eq_self_iff]
      intro j hj
      have h1 := hc j hj
      have hne : posIn perm v ≠ posIn perm j := fun he =>
        absurd (posIn_inj hp hv (lt_trans hj hv) he) (Nat.ne_of_gt hj)
      omega
    omega
  · rintro ⟨j, hj, hlt⟩
    rcases Nat.lt_or_ge (ellAt perm v) v with h | h
    · exact h
    · have he : ellAt perm v = v := le_antisymm (ellAt_le perm v) h
      have := (ellAt_eq_self_iff v).1 he j hj
      omega

theorem ellAt_pos_iff {perm : List Nat} (v : Nat) :
    0 < ellAt perm v ↔ ∃ j, j < v ∧ posIn perm v < posIn perm j := by
  unfold ellAt
  rw [Finset.card_pos]
  constructor
  · rintro ⟨j, hj⟩
    rw [Finset.mem_filter, Finset.mem_range] at hj
    exact ⟨j, hj.1, hj.2⟩
  · rintro ⟨j, hj, hlt⟩
    exact ⟨j, Finset.mem_filter.2 ⟨Finset.mem_range.2 hj, hlt⟩⟩

/-! ### Characterization of the loops inside `next` -/

theorem foldlM_set?_enumFrom : ∀ (l : List Nat) (k : Nat) (acc : List Nat),
    (∀ x ∈ l, x < acc.length) →
    ∃ r, (l.enumFrom k).foldlM (fun rev_perm p => set? rev_perm p.2 p.1) acc = some r ∧
      r.length = acc.length
  | [], _, acc, _ => ⟨acc, rfl, rfl⟩
  | x :: xs, k, acc, h => by
    have hx : x < acc.length := h x (List.mem_cons_self x xs)
    obtain ⟨r, hr, hlen⟩ := foldlM_set?_enumFrom xs (k + 1) (acc.set x k)
      (fun y hy => by rw [List.length_set]; exact h y (List.mem_cons_of_mem x hy))
    refine ⟨r, ?_, by rw [hlen, List.length_set]⟩
    rw [List.enumFrom_cons, List.foldlM_cons]
    have : set? acc x k = some (acc.set x k) := by
      unfold set?
      rw [if_pos hx]
    rw [this]
    exact hr

theorem foldlM_set?_enumFrom_nodup : ∀ (l : List Nat) (k : Nat) (acc : List Nat),
    (∀ x ∈ l, x < acc.length) → l.Nodup →
    ∃ r, (l.enumFrom k).foldlM (fun rev_perm p => set? rev_perm p.2 p.1) acc = some r ∧
      r.length = acc.length ∧
      ∀ v, (v ∈ l → r.getD v 0 = k + l.indexOf v) ∧ (v ∉ l → r.getD v 0 = acc.getD v 0)
  | [], _, acc, _, _ => ⟨acc, rfl, rfl, fun v => ⟨fun hv => absurd hv (List.not_mem_nil v), fun _ => rfl⟩⟩
  | x :: xs, k, acc, h, hnd => by
    have hx : x < acc.length := h x (List.mem_cons_self x xs)
    have hxxs : x ∉ xs := (List.nodup_cons.1 hnd).1
    obtain ⟨r, hr, hlen, hget⟩ := foldlM_set?_enumFrom_nodup xs (k + 1) (acc.set x k)
      (fun y hy => by rw [List.length_set]; exact h y (List.mem_cons_of_mem x hy))
      (List.nodup_cons.1 hnd).2
    refine ⟨r, ?_, by rw [hlen, List.length_set], ?_⟩
    · rw [List.enumFrom_cons, List.foldlM_cons]
      have : set? acc x k = some (acc.set x k) := by
        unfold set?
        rw [if_pos hx]
      rw [this]
      exact hr
    · intro v
      constructor
      · intro hv
        rcases List.mem_cons.1 hv with hvx | hvxs
        · subst hvx
          rw [(hget v).2 hxxs, getD_set_self _ hx, List.indexOf_cons_self]
          omega
        · have hvne : v ≠ x := fun he => hxxs (he ▸ hvxs)
          rw [(hget v).1 hvxs, List.indexOf_cons_ne _ (Ne.symm hvne)]
          omega
      · intro hv
        have hvx : v ≠ x := fun he => hv (he ▸ List.mem_cons_self x xs)
        have hvxs : v ∉ xs := fun hm => hv (List.mem_cons_of_mem x hm)
        rw [(hget v).2 hvxs, getD_set_ne _ (fun he => hvx he.symm)]

/-- Success and length of `inverse_perm` for any input whose entries are
all in bounds (even a non-permutation). -/
theorem inverse_perm_total {v : List Nat} (hv : ∀ x ∈ v, x < v.length) :
    ∃ r, inverse_perm v = some r ∧ r.length = v.length := by
  obtain ⟨r, hr, hlen⟩ := foldlM_set?_enumFrom v 0 v hv
  exact ⟨r, by rw [inverse_perm, List.enum]; exact hr, hlen⟩

/-- On a valid permutation, `inverse_perm` computes the position of every
value. -/
theorem inverse_perm_of_perm {perm : List Nat} {n : Nat} (hp : perm.Perm (List.range n)) :
    ∃ r, inverse_perm perm = some r ∧ r.length = n ∧
      ∀ v, v < n → r.getD v 0 = posIn perm v := by
  have hl : ∀ x ∈ perm, x < perm.length := by
    intro x hx
    rw [perm_length hp]
    exact (perm_mem_iff hp).1 hx
  obtain ⟨r, hr, hlen, hget⟩ := foldlM_set?_enumFrom_nodup perm 0 perm hl (perm_nodup hp)
  refine ⟨r, by rw [inverse_perm, List.enum]; exact hr, by rw [hlen, perm_length hp], ?_⟩
  intro v hv
  rw [(hget v).1 ((perm_mem_iff hp).2 hv), posIn]
  omega

theorem init_loop_spec : ∀ (js : List Nat) (perm : List Nat) (dir : List Int),
    (∀ j ∈ js, j < perm.length ∧ j < dir.length) →
    ∃ p d, init_loop perm dir js = some (p, d) ∧
      p.length = perm.length ∧ d.length = dir.length ∧
      (∀ t, p.getD t 0 = if t ∈ js then t else perm.getD t 0) ∧
      (∀ t, d.getD t 0 = if t ∈ js then -1 else dir.getD t 0)
  | [], perm, dir, _ => ⟨perm, dir, rfl, rfl, rfl, fun t => by simp, fun t => by simp⟩
  | j :: js, perm, dir, h => by
    have hj := h j (List.mem_cons_self j js)
    obtain ⟨p, d, hpd, hplen, hdlen, hpget, hdget⟩ := init_loop_spec js (perm.set j j)
      (dir.set j (-1))
      (fun y hy => by
        rw [List.length_set, List.length_set]
        exact h y (List.mem_cons_of_mem j hy))
    refine ⟨p, d, ?_, by rw [hplen, List.length_set], by rw [hdlen, List.length_set], ?_, ?_⟩
    · show (do
        let perm' ← set? perm j j
        let dir' ← set? dir j (-1)
        init_loop perm' dir' js) = some (p, d)
      have e1 : set? perm j j = some (perm.set j j) := by unfold set?; rw [if_pos hj.1]
      have e2 : set? dir j (-1) = some (dir.set j (-1)) := by unfold set?; rw [if_pos hj.2]
      rw [e1, e2]
      exact hpd
    · intro t
      rw [hpget t]
      by_cases htjs : t ∈ js
      · rw [if_pos htjs, if_pos (List.mem_cons_of_mem j htjs)]
      · by_cases htj : t = j
        · subst htj
          rw [if_neg htjs, getD_set_self _ hj.1, if_pos (List.mem_cons_self t js)]
        · have hnotin : t ∉ j :: js := by
            intro hc
            rcases List.mem_cons.1 hc with hc | hc
            · exact htj hc
            · exact htjs hc
          rw [if_neg htjs, getD_set_ne _ (fun he => htj he.symm), if_neg hnotin]
    · intro t
      rw [hdget t]
      by_cases htjs : t ∈ js
      · rw [if_pos htjs, if_pos (List.mem_cons_of_mem j htjs)]
      · by_cases htj : t = j
        · subst htj
          rw [if_neg htjs, getD_set_self _ hj.2, if_pos (List.mem_cons_self t js)]
        · have hnotin : t ∉ j :: js := by
            intro hc
            rcases List.mem_cons.1 hc with hc | hc
            · exact htj hc
            · exact htjs hc
          rw [if_neg htjs, getD_set_ne _ (fun he => htj he.symm), if_neg hnotin]

theorem get?_eq_some_getD {α : Type} (l : List α) {i : Nat} (h : i < l.length) (d : α) :
    l.get? i = some (l.getD i d) := by
  rw [List.get?_eq_getElem?, List.getElem?_eq_getElem h, getD_eq_getElem _ h]

theorem range_succ_reverse (k : Nat) :
    (List.range (k + 1)).reverse = k :: (List.range k).reverse := by
  rw [List.range_succ, List.reverse_append]
  rfl

theorem find_loop_none (rp : List Nat) (dir : List Int) (i0 : Nat) :
    ∀ (k : Nat) (ii0 : Nat) (id0 : Int),
    (∀ j, j < k → j < rp.length ∧ rp.getD j 0 < dir.length) →
    (∀ j, j < k → dir.getD (rp.getD j 0) 0 = 0) →
    ∃ ii id, find_loop rp dir i0 ii0 id0 (List.range k).reverse = some (i0, ii, id)
  | 0, ii0, id0, _, _ => ⟨ii0, id0, rfl⟩
  | k + 1, ii0, id0, hb, hz => by
    obtain ⟨ii, id, hrec⟩ := find_loop_none rp dir i0 k (rp.getD k 0) 0
      (fun j hj => hb j (Nat.lt_succ_of_lt hj)) (fun j hj => hz j (Nat.lt_succ_of_lt hj))
    refine ⟨ii, id, ?_⟩
    rw [range_succ_reverse]
    show (do
      let ii' ← rp.get? k
      let id' ← dir.get? ii'
      if id' ≠ 0 then some (k, ii', id')
      else find_loop rp dir i0 ii' id' (List.range k).reverse) = some (i0, ii, id)
    have hbk := hb k (Nat.lt_succ_self k)
    rw [get?_eq_some_getD _ hbk.1 0]
    simp only [Option.bind_eq_bind, Option.some_bind]
    rw [get?_eq_some_getD _ hbk.2 0]
    simp only [Option.bind_eq_bind, Option.some_bind]
    rw [hz k (Nat.lt_succ_self k)]
    simpa using hrec

theorem find_loop_found (rp : List Nat) (dir : List Int) (i0 : Nat) (m : Nat) :
    ∀ (k : Nat) (ii0 : Nat) (id0 : Int), m < k →
    (∀ j, j < k → j < rp.length ∧ rp.getD j 0 < dir.length) →
    (∀ j, m < j → j < k → dir.getD (rp.getD j 0) 0 = 0) →
    dir.getD (rp.getD m 0) 0 ≠ 0 →
    find_loop rp dir i0 ii0 id0 (List.range k).reverse =
      some (m, rp.getD m 0, dir.getD (rp.getD m 0) 0)
  | 0, _, _, hmk, _, _, _ => absurd hmk (Nat.not_lt_zero m)
  | k + 1, ii0, id0, hmk, hb, hz, hm => by
    rw [range_succ_reverse]
    show (do
      let ii' ← rp.get? k
      let id' ← dir.get? ii'
      if id' ≠ 0 then some (k, ii', id')
      else find_loop rp dir i0 ii' id' (List.range k).reverse) =
        some (m, rp.getD m 0, dir.getD (rp.getD m 0) 0)
    have hbk := hb k (Nat.lt_succ_self k)
    rw [get?_eq_some_getD _ hbk.1 0]
    simp only [Option.bind_eq_bind, Option.some_bind]
    rw [get?_eq_some_getD _ hbk.2 0]
    simp only [Option.bind_eq_bind, Option.some_bind]
    rcases Nat.lt_or_ge m k with hlt | hge
    · rw [hz k hlt (Nat.lt_succ_self k)]
      simpa using find_loop_found rp dir i0 m k (rp.getD k 0) 0 hlt
        (fun j hj => hb j (Nat.lt_succ_of_lt hj))
        (fun j hj1 hj2 => hz j hj1 (Nat.lt_succ_of_lt hj2)) hm
    · have hkm : m = k := Nat.le_antisymm (Nat.lt_succ_iff.1 hmk) hge
      subst hkm
      rw [if_pos hm]

theorem update_loop_spec (rp : List Nat) (ii_new : Int) : ∀ (js : List Nat) (dir : List Int),
    (∀ j ∈ js, j < rp.length ∧ rp.getD j 0 < dir.length) →
    ∃ d, update_loop rp ii_new dir js = some d ∧ d.length = dir.length ∧
      ∀ t, d.getD t 0 = if ∃ j ∈ js, rp.getD j 0 = t then
        (if (t : Int) < ii_new then 1 else -1) else dir.getD t 0
  | [], dir, _ => ⟨dir, rfl, rfl, fun t => by simp⟩
  | j :: js, dir, h => by
    have hj := h j (List.mem_cons_self j js)
    obtain ⟨d, hd, hdlen, hget⟩ := update_loop_spec rp ii_new js
      (dir.set (rp.getD j 0) (if ((rp.getD j 0 : Nat) : Int) < ii_new then 1 else -1))
      (fun y hy => by
        rw [List.length_set]
        exact h y (List.mem_cons_of_mem j hy))
    refine ⟨d, ?_, by rw [hdlen, List.length_set], ?_⟩
    · show (do
        let ji ← rp.get? j
        let dir' ← set? dir ji (if (ji : Int) < ii_new then 1 else -1)
        update_loop rp ii_new dir' js) = some d
      rw [get?_eq_some_getD _ hj.1 0]
      simp only [Option.bind_eq_bind, Option.some_bind]
      have e2 : set? dir (rp.getD j 0) (if ((rp.getD j 0 : Nat) : Int) < ii_new then 1 else -1)
          = some (dir.set (rp.getD j 0)
              (if ((rp.getD j 0 : Nat) : Int) < ii_new then 1 else -1)) := by
        unfold set?
        rw [if_pos hj.2]
      rw [e2]
      simp only [Option.bind_eq_bind, Option.some_bind]
      exact hd
    · intro t
      rw [hget t]
      by_cases hjs : ∃ y ∈ js, rp.getD y 0 = t
      · obtain ⟨y, hy, hyt⟩ := hjs
        rw [if_pos (show ∃ y ∈ js, rp.getD y 0 = t from ⟨y, hy, hyt⟩),
          if_pos (show ∃ y ∈ j :: js, rp.getD y 0 = t from
            ⟨y, List.mem_cons_of_mem j hy, hyt⟩)]
      · by_cases htji : t = rp.getD j 0
        · rw [if_neg hjs, htji, getD_set_self _ hj.2,
            if_pos (show ∃ y ∈ j :: js, rp.getD y 0 = rp.getD j 0 from
              ⟨j, List.mem_cons_self j js, rfl⟩)]
        · have hnotin : ¬ ∃ y ∈ j :: js, rp.getD y 0 = t := by
            rintro ⟨y, hy, hyt⟩
            rcases List.mem_cons.1 hy with hy | hy
            · apply htji
              rw [← hyt, hy]
            · exact hjs ⟨y, hy, hyt⟩
          rw [if_neg hjs, getD_set_ne _ (fun he => htji he.symm), if_neg hnotin]

/-! ### Swapping two adjacent slots of a permutation -/

/-- The permutation obtained by exchanging the entries at slots `t` and
`t + 1`. -/
def swapAdj (perm : List Nat) (t : Nat) : List Nat :=
  (perm.set t (perm.getD (t + 1) 0)).set (t + 1) (perm.getD t 0)

theorem swapAdj_length (perm : List Nat) (t : Nat) : (swapAdj perm t).length = perm.length := by
  unfold swapAdj
  simp

theorem swapAdj_is_perm {perm : List Nat} {n : Nat} (hp : perm.Perm (List.range n)) {t : Nat}
    (ht : t + 1 < n) : (swapAdj perm t).Perm (List.range n) := by
  have ht1 : t + 1 < perm.length := by rw [perm_length hp]; exact ht
  have ht0 : t < perm.length := Nat.lt_of_succ_lt ht1
  have e : swapAdj perm t = (perm.set t perm[t + 1]).set (t + 1) perm[t] := by
    unfold swapAdj
    rw [getD_eq_getElem _ ht1, getD_eq_getElem _ ht0]
  rw [e]
  exact (swap_perm perm ht0 ht1).trans hp

theorem swapAdj_getD_fst {perm : List Nat} {t : Nat} (ht : t + 1 < perm.length) :
    (swapAdj perm t).getD t 0 = perm.getD (t + 1) 0 := by
  unfold swapAdj
  exact swap_getD_left _ (Nat.ne_of_lt (Nat.lt_succ_self t)) (Nat.lt_of_succ_lt ht) _ _ _

theorem swapAdj_getD_snd {perm : List Nat} {t : Nat} (ht : t + 1 < perm.length) :
    (swapAdj perm t).getD (t + 1) 0 = perm.getD t 0 := by
  unfold swapAdj
  exact swap_getD_right _ _ ht _ _ _

theorem swapAdj_getD_other {perm : List Nat} {t q : Nat} (h1 : q ≠ t) (h2 : q ≠ t + 1) :
    (swapAdj perm t).getD q 0 = perm.getD q 0 := by
  unfold swapAdj
  exact swap_getD_other _ h1 h2 _ _ _

theorem posIn_swapAdj_fst {perm : List Nat} {n : Nat} (hp : perm.Perm (List.range n)) {t : Nat}
    (ht : t + 1 < n) : posIn (swapAdj perm t) (perm.getD t 0) = t + 1 := by
  have hp2 := swapAdj_is_perm hp ht
  have := posIn_getD hp2 (t := t + 1) ht
  rwa [swapAdj_getD_snd (by rw [perm_length hp]; exact ht)] at this

theorem posIn_swapAdj_snd {perm : List Nat} {n : Nat} (hp : perm.Perm (List.range n)) {t : Nat}
    (ht : t + 1 < n) : posIn (swapAdj perm t) (perm.getD (t + 1) 0) = t := by
  have hp2 := swapAdj_is_perm hp ht
  have := posIn_getD hp2 (t := t) (Nat.lt_of_succ_lt ht)
  rwa [swapAdj_getD_fst (by rw [perm_length hp]; exact ht)] at this

theorem posIn_swapAdj_other {perm : List Nat} {n : Nat} (hp : perm.Perm (List.range n)) {t : Nat}
    (ht : t + 1 < n) {u : Nat} (hu : u < n) (hux : u ≠ perm.getD t 0)
    (huy : u ≠ perm.getD (t + 1) 0) : posIn (swapAdj perm t) u = posIn perm u := by
  have hp2 := swapAdj_is_perm hp ht
  have hq : posIn perm u < n := posIn_lt hp hu
  have hqt : posIn perm u ≠ t := by
    intro he
    apply hux
    rw [← getD_posIn hp hu, he]
  have hqt1 : posIn perm u ≠ t + 1 := by
    intro he
    apply huy
    rw [← getD_posIn hp hu, he]
  have hval : (swapAdj perm t).getD (posIn perm u) 0 = u := by
    rw [swapAdj_getD_other hqt hqt1, getD_posIn hp hu]
  have := posIn_getD hp2 hq
  rwa [hval] at this

/-- The position of `u` is in the pair `{t, t + 1}` exactly for the two
swapped values. -/
theorem posIn_eq_t_iff {perm : List Nat} {n : Nat} (hp : perm.Perm (List.range n)) {t : Nat}
    (ht : t < n) {u : Nat} (hu : u < n) : posIn perm u = t ↔ u = perm.getD t 0 := by
  constructor
  · intro he
    rw [← getD_posIn hp hu, he]
  · intro he
    rw [he]
    exact posIn_getD hp ht

/-! ### Effect of an adjacent swap on the digits `ellAt` -/

theorem ellAt_swapAdj_of_ne {perm : List Nat} {n : Nat} (hp : perm.Perm (List.range n))
    {t : Nat} (ht : t + 1 < n) {u : Nat} (hu : u < n) (hux : u ≠ perm.getD t 0)
    (huy : u ≠ perm.getD (t + 1) 0) : ellAt (swapAdj perm t) u = ellAt perm u := by
  unfold ellAt
  have hfil : (Finset.range u).filter (fun j => posIn (swapAdj perm t) u < posIn (swapAdj perm t) j)
      = (Finset.range u).filter (fun j => posIn perm u < posIn perm j) := by
    apply Finset.filter_congr
    intro j hj
    rw [Finset.mem_range] at hj
    have hju : j < n := lt_trans hj hu
    have h1 : posIn perm u ≠ t := fun he =>
      hux ((posIn_eq_t_iff hp (Nat.lt_of_succ_lt ht) hu).1 he)
    have h2 : posIn perm u ≠ t + 1 := fun he => huy ((posIn_eq_t_iff hp ht hu).1 he)
    rw [posIn_swapAdj_other hp ht hu hux huy]
    by_cases hjx : j = perm.getD t 0
    · subst hjx
      rw [posIn_swapAdj_fst hp ht, posIn_getD hp (Nat.lt_of_succ_lt ht)]
      omega
    · by_cases hjy : j = perm.getD (t + 1) 0
      · subst hjy
        rw [posIn_swapAdj_snd hp ht, posIn_getD hp ht]
        omega
      · rw [posIn_swapAdj_other hp ht hju hjx hjy]
  rw [hfil]

theorem ellAt_swapAdj_min_fst {perm : List Nat} {n : Nat} (hp : perm.Perm (List.range n))
    {t : Nat} (ht : t + 1 < n) (hxy : perm.getD t 0 < perm.getD (t + 1) 0) :
    ellAt (swapAdj perm t) (perm.getD t 0) = ellAt perm (perm.getD t 0) := by
  unfold ellAt
  have hfil : (Finset.range (perm.getD t 0)).filter
        (fun j => posIn (swapAdj perm t) (perm.getD t 0) < posIn (swapAdj perm t) j)
      = (Finset.range (perm.getD t 0)).filter
        (fun j => posIn perm (perm.getD t 0) < posIn perm j) := by
    apply Finset.filter_congr
    intro j hj
    rw [Finset.mem_range] at hj
    have hju : j < n := lt_trans hj (getD_lt hp (Nat.lt_of_succ_lt ht))
    have hjx : j ≠ perm.getD t 0 := Nat.ne_of_lt hj
    have hjy : j ≠ perm.getD (t + 1) 0 := Nat.ne_of_lt (lt_trans hj hxy)
    have hjt : posIn perm j ≠ t := fun he => hjx ((posIn_eq_t_iff hp (Nat.lt_of_succ_lt ht) hju).1 he)
    have hjt1 : posIn perm j ≠ t + 1 := fun he => hjy ((posIn_eq_t_iff hp ht hju).1 he)
    rw [posIn_swapAdj_fst hp ht, posIn_swapAdj_other hp ht hju hjx hjy,
      posIn_getD hp (Nat.lt_of_succ_lt ht)]
    omega
  rw [hfil]

theorem ellAt_swapAdj_min_snd {perm : List Nat} {n : Nat} (hp : perm.Perm (List.range n))
    {t : Nat} (ht : t + 1 < n) (hxy : perm.getD (t + 1) 0 < perm.getD t 0) :
    ellAt (swapAdj perm t) (perm.getD (t + 1) 0) = ellAt perm (perm.getD (t + 1) 0) := by
  unfold ellAt
  have hfil : (Finset.range (perm.getD (t + 1) 0)).filter
        (fun j => posIn (swapAdj perm t) (perm.getD (t + 1) 0) < posIn (swapAdj perm t) j)
      = (Finset.range (perm.getD (t + 1) 0)).filter
        (fun j => posIn perm (perm.getD (t + 1) 0) < posIn perm j) := by
    apply Finset.filter_congr
    intro j hj
    rw [Finset.mem_range] at hj
    have hju : j < n := lt_trans hj (getD_lt hp ht)
    have hjy : j ≠ perm.getD (t + 1) 0 := Nat.ne_of_lt hj
    have hjx : j ≠ perm.getD t 0 := Nat.ne_of_lt (lt_trans hj hxy)
    have hjt : posIn perm j ≠ t := fun he => hjx ((posIn_eq_t_iff hp (Nat.lt_of_succ_lt ht) hju).1 he)
    have hjt1 : posIn perm j ≠ t + 1 := fun he => hjy ((posIn_eq_t_iff hp ht hju).1 he)
    rw [posIn_swapAdj_snd hp ht, posIn_swapAdj_other hp ht hju hjx hjy, posIn_getD hp ht]
    omega
  rw [hfil]

theorem ellAt_swapAdj_max_snd {perm : List Nat} {n : Nat} (hp : perm.Perm (List.range n))
    {t : Nat} (ht : t + 1 < n) (hxy : perm.getD t 0 < perm.getD (t + 1) 0) :
    ellAt (swapAdj perm t) (perm.getD (t + 1) 0) = ellAt perm (perm.getD (t + 1) 0) + 1 := by
  unfold ellAt
  have hx : perm.getD t 0 < n := getD_lt hp (Nat.lt_of_succ_lt ht)
  have hfil : (Finset.range (perm.getD (t + 1) 0)).filter
        (fun j => posIn (swapAdj perm t) (perm.getD (t + 1) 0) < posIn (swapAdj perm t) j)
      = insert (perm.getD t 0) ((Finset.range (perm.getD (t + 1) 0)).filter
        (fun j => posIn perm (perm.getD (t + 1) 0) < posIn perm j)) := by
    apply Finset.ext
    intro j
    rw [Finset.mem_insert, Finset.mem_filter, Finset.mem_filter, Finset.mem_range]
    constructor
    · rintro ⟨hj, hlt⟩
      by_cases hjx : j = perm.getD t 0
      · exact Or.inl hjx
      · right
        refine ⟨hj, ?_⟩
        have hju : j < n := lt_trans hj (getD_lt hp ht)
        have hjy : j ≠ perm.getD (t + 1) 0 := Nat.ne_of_lt hj
        have hjt : posIn perm j ≠ t :=
          fun he => hjx ((posIn_eq_t_iff hp (Nat.lt_of_succ_lt ht) hju).1 he)
        have hjt1 : posIn perm j ≠ t + 1 := fun he => hjy ((posIn_eq_t_iff hp ht hju).1 he)
        rw [posIn_swapAdj_snd hp ht, posIn_swapAdj_other hp ht hju hjx hjy] at hlt
        rw [posIn_getD hp ht]
        omega
    · rintro (hjx | ⟨hj, hlt⟩)
      · subst hjx
        refine ⟨hxy, ?_⟩
        rw [posIn_swapAdj_snd hp ht, posIn_swapAdj_fst hp ht]
        omega
      · refine ⟨hj, ?_⟩
        have hju : j < n := lt_trans hj (getD_lt hp ht)
        have hjy : j ≠ perm.getD (t + 1) 0 := Nat.ne_of_lt hj
        rw [posIn_getD hp ht] at hlt
        by_cases hjx : j = perm.getD t 0
        · subst hjx
          rw [posIn_getD hp (Nat.lt_of_succ_lt ht)] at hlt
          omega
        · have hjt : posIn perm j ≠ t :=
            fun he => hjx ((posIn_eq_t_iff hp (Nat.lt_of_succ_lt ht) hju).1 he)
          rw [posIn_swapAdj_snd hp ht, posIn_swapAdj_other hp ht hju hjx hjy]
          omega
  rw [hfil, Finset.card_insert_of_not_mem]
  intro hmem
  rw [Finset.mem_filter] at hmem
  have := hmem.2
  rw [posIn_getD hp ht, posIn_getD hp (Nat.lt_of_succ_lt ht)] at this
  omega

theorem ellAt_swapAdj_max_fst {perm : List Nat} {n : Nat} (hp : perm.Perm (List.range n))
    {t : Nat} (ht : t + 1 < n) (hxy : perm.getD (t + 1) 0 < perm.getD t 0) :
    ellAt (swapAdj perm t) (perm.getD t 0) + 1 = ellAt perm (perm.getD t 0) := by
  unfold ellAt
  have hy : perm.getD (t + 1) 0 < n := getD_lt hp ht
  have hfil : (Finset.range (perm.getD t 0)).filter
        (fun j => posIn perm (perm.getD t 0) < posIn perm j)
      = insert (perm.getD (t + 1) 0) ((Finset.range (perm.getD t 0)).filter
        (fun j => posIn (swapAdj perm t) (perm.getD t 0) < posIn (swapAdj perm t) j)) := by
    apply Finset.ext
    intro j
    rw [Finset.mem_insert, Finset.mem_filter, Finset.mem_filter, Finset.mem_range]
    constructor
    · rintro ⟨hj, hlt⟩
      by_cases hjy : j = perm.getD (t + 1) 0
      · exact Or.inl hjy
      · right
        refine ⟨hj, ?_⟩
        have hju : j < n := lt_trans hj (getD_lt hp (Nat.lt_of_succ_lt ht))
        have hjx : j ≠ perm.getD t 0 := Nat.ne_of_lt hj
        have hjt : posIn perm j ≠ t :=
          fun he => hjx ((posIn_eq_t_iff hp (Nat.lt_of_succ_lt ht) hju).1 he)
        have hjt1 : posIn perm j ≠ t + 1 := fun he => hjy ((posIn_eq_t_iff hp ht hju).1 he)
        rw [posIn_getD hp (Nat.lt_of_succ_lt ht)] at hlt
        rw [posIn_swapAdj_fst hp ht, posIn_swapAdj_other hp ht hju hjx hjy]
        omega
    · rintro (hjy | ⟨hj, hlt⟩)
      · subst hjy
        refine ⟨hxy, ?_⟩
        rw [posIn_getD hp ht, posIn_getD hp (Nat.lt_of_succ_lt ht)]
        omega
      · refine ⟨hj, ?_⟩
        have hju : j < n := lt_trans hj (getD_lt hp (Nat.lt_of_succ_lt ht))
        have hjx : j ≠ perm.getD t 0 := Nat.ne_of_lt hj
        rw [posIn_getD hp (Nat.lt_of_succ_lt ht)]
        by_cases hjy : j = perm.getD (t + 1) 0
        · subst hjy
          rw [posIn_swapAdj_fst hp ht, posIn_swapAdj_snd hp ht] at hlt
          omega
        · have hjt1 : posIn perm j ≠ t + 1 := fun he => hjy ((posIn_eq_t_iff hp ht hju).1 he)
          rw [posIn_swapAdj_fst hp ht, posIn_swapAdj_other hp ht hju hjx hjy] at hlt
          omega
  rw [hfil, Finset.card_insert_of_not_mem]
  intro hmem
  rw [Finset.mem_filter] at hmem
  have := hmem.2
  rw [posIn_swapAdj_fst hp ht, posIn_swapAdj_snd hp ht] at this
  omega

/-! ### Weights and the Gray rank -/

theorem wtF_pos (n v : Nat) : 0 < wtF n v := by
  unfold wtF
  apply Finset.prod_pos
  intro t ht
  rw [Finset.mem_Ico] at ht
  omega

theorem wtF_succ (n v : Nat) (h : v + 1 < n) : wtF n v = (v + 2) * wtF n (v + 1) := by
  unfold wtF
  rw [Finset.prod_eq_prod_Ico_succ_bot (show v + 2 < n + 1 by omega)]

theorem wtF_zero (n : Nat) : wtF n 0 = Nat.factorial n := by
  unfold wtF
  rcases Nat.eq_zero_or_pos n with h | h
  · subst h
    rw [Finset.Ico_eq_empty (by omega), Finset.prod_empty]
    rfl
  · rw [← Finset.prod_Ico_id_eq_factorial n,
      Finset.prod_eq_prod_Ico_succ_bot (show 1 < n + 1 by omega), one_mul]

theorem telescope_wt (n : Nat) : ∀ (d k : Nat), k + 1 + d = n →
    (∑ v ∈ Finset.Ico (k + 1) n, v * wtF n v) + 1 = wtF n k
  | 0, k, h => by
    have hn : n = k + 1 := by omega
    subst hn
    rw [Finset.Ico_eq_empty (by omega), Finset.sum_empty]
    rw [wtF, Finset.Ico_eq_empty (by omega), Finset.prod_empty]
    omega
  | d + 1, k, h => by
    have h1 : k + 1 < n := by omega
    rw [Finset.sum_eq_sum_Ico_succ_bot h1]
    have ih := telescope_wt n d (k + 1) (by omega)
    rw [wtF_succ n k h1]
    have e : (k + 2) * wtF n (k + 1) = (k + 1) * wtF n (k + 1) + wtF n (k + 1) := by ring
    rw [e, ← ih]
    ring

theorem sum_weights_max (n : Nat) (hn : 0 < n) :
    (∑ v ∈ Finset.range n, v * wtF n v) + 1 = Nat.factorial n := by
  rw [Finset.range_eq_Ico, Finset.sum_eq_sum_Ico_succ_bot hn]
  simp only [Nat.zero_mul, Nat.zero_add]
  rw [← wtF_zero n]
  exact telescope_wt n (n - 1) 0 (by omega)

theorem digitAt_le (perm : List Nat) (v : Nat) : digitAt perm v ≤ v := by
  unfold digitAt
  split
  · exact ellAt_le perm v
  · omega

theorem digitAt_zero (perm : List Nat) : digitAt perm 0 = 0 := by
  have h : ellAt perm 0 = 0 := by
    unfold ellAt
    simp
  unfold digitAt
  split <;> omega

theorem rank_all_max {perm : List Nat} {n : Nat} (hlen : perm.length = n) (hn : 0 < n)
    (h : ∀ v, v < n → digitAt perm v = v) : rankP perm + 1 = Nat.factorial n := by
  unfold rankP
  rw [hlen, Finset.sum_congr rfl (fun v hv => by rw [h v (Finset.mem_range.1 hv)])]
  exact sum_weights_max n hn

theorem rank_lt_max {perm : List Nat} {n : Nat} (hlen : perm.length = n) (hn : 0 < n)
    {v0 : Nat} (hv0 : v0 < n) (hlt : digitAt perm v0 < v0) : rankP perm + 1 < Nat.factorial n := by
  have h1 : ∑ v ∈ Finset.range n, digitAt perm v * wtF n v
      < ∑ v ∈ Finset.range n, v * wtF n v := by
    apply Finset.sum_lt_sum
    · intro i _
      exact Nat.mul_le_mul_right _ (digitAt_le perm i)
    · exact ⟨v0, Finset.mem_range.2 hv0, (mul_lt_mul_right (wtF_pos n v0)).2 hlt⟩
  have h2 := sum_weights_max n hn
  unfold rankP
  rw [hlen]
  omega

/-- The abstract reflected-Gray increment: if the digit vector gains one at
position `a`, digits below `a` are unchanged, and digits above `a` drop
from their maximum to zero, then the weighted sum grows by exactly one. -/
theorem digit_sum_step (n a : Nat) (g g' : Nat → Nat) (ha : a < n)
    (h1 : ∀ v, v < a → g' v = g v) (h2 : g' a = g a + 1)
    (h3 : ∀ v, a < v → v < n → g v = v ∧ g' v = 0) :
    ∑ v ∈ Finset.range n, g' v * wtF n v = (∑ v ∈ Finset.range n, g v * wtF n v) + 1 := by
  have hsplit : ∀ f : Nat → Nat, ∑ v ∈ Finset.range n, f v
      = (∑ v ∈ Finset.range a, f v) + f a + ∑ v ∈ Finset.Ico (a + 1) n, f v := by
    intro f
    rw [← Finset.sum_range_add_sum_Ico f (Nat.succ_le_of_lt ha), Finset.sum_range_succ]
  rw [hsplit, hsplit]
  have e1 : ∑ v ∈ Finset.range a, g' v * wtF n v = ∑ v ∈ Finset.range a, g v * wtF n v :=
    Finset.sum_congr rfl (fun v hv => by rw [h1 v (Finset.mem_range.1 hv)])
  have e2 : ∑ v ∈ Finset.Ico (a + 1) n, g' v * wtF n v = 0 := by
    apply Finset.sum_eq_zero
    intro v hv
    rw [Finset.mem_Ico] at hv
    rw [(h3 v hv.1 hv.2).2, Nat.zero_mul]
  have e3 : ∑ v ∈ Finset.Ico (a + 1) n, g v * wtF n v
      = ∑ v ∈ Finset.Ico (a + 1) n, v * wtF n v :=
    Finset.sum_congr rfl (fun v hv => by
      rw [Finset.mem_Ico] at hv
      rw [(h3 v hv.1 hv.2).1])
  have e4 := telescope_wt n (n - 1 - a) a (by omega)
  rw [e1, e2, e3, h2]
  have e5 : (g a + 1) * wtF n a = g a * wtF n a + wtF n a := by ring
  rw [e5, ← e4]
  ring

/-! ### Derived facts from the running invariant -/

theorem InvRun.dval_trichotomy {s : Permutations} (hs : InvRun s) {v : Nat} (hv : v < s.n) :
    dvalOf s v = -1 ∨ dvalOf s v = 0 ∨ dvalOf s v = 1 :=
  hs.dmem (posIn s.perm v) (posIn_lt hs.hperm hv)

theorem InvRun.mobile_pos {s : Permutations} (hs : InvRun s) {v : Nat}
    (hd : dvalOf s v ≠ 0) : 0 < v := by
  rcases Nat.eq_zero_or_pos v with h | h
  · subst h
    exact absurd hs.d0 hd
  · exact h

theorem InvRun.settled_sides {s : Permutations} (hs : InvRun s) {v : Nat} (h0 : 0 < v)
    (hv : v < s.n) (hd : dvalOf s v = 0) :
    (∀ j, j < v → posIn s.perm v < posIn s.perm j) ∨
    (∀ j, j < v → posIn s.perm j < posIn s.perm v) := by
  rcases hs.i40 v h0 hv hd with ⟨_, hl⟩ | ⟨_, hl⟩
  · exact Or.inl ((ellAt_eq_self_iff v).1 hl)
  · exact Or.inr ((ellAt_eq_zero_iff hs.hperm hv).1 hl)

/-- Advancing a running state in which every value is settled: the scan
finds nothing and the generator marks itself finished. -/
theorem next_exhaust (s : Permutations) (hInv : InvRun s) (hInit : s.is_initiated = true)
    (hFin : s.is_finished = false) (hall : ∀ v, v < s.n → dvalOf s v = 0) :
    s.next = some (none, { s with is_finished := true }) := by
  obtain ⟨rp, hrp, hrplen, hrpget⟩ := inverse_perm_of_perm hInv.hperm
  have hbounds : ∀ j, j < s.n → j < rp.length ∧ rp.getD j 0 < s.direction.length := by
    intro j hj
    constructor
    · rw [hrplen]; exact hj
    · rw [hrpget j hj, hInv.dlen]
      exact posIn_lt hInv.hperm hj
  have hzero : ∀ j, j < s.n → s.direction.getD (rp.getD j 0) 0 = 0 := by
    intro j hj
    rw [hrpget j hj]
    exact hall j hj
  obtain ⟨ii, id, hfl⟩ := find_loop_none rp s.direction s.n s.n 0 0 hbounds hzero
  unfold Permutations.next
  rw [hInit, hFin]
  rw [if_neg (show ¬(true = false) by simp), if_neg (show ¬(false = true) by simp)]
  rw [hrp]
  dsimp only
  rw [hfl]
  dsimp only
  rw [if_pos rfl]

/-- Everything a successful SJT step establishes: the advance call
succeeds, swaps the moving value `m` with an adjacent smaller neighbor,
keeps the invariant, increments the Gray rank, settles `m` exactly under
the boundary/blocked condition, and re-aims every larger value at `m`'s
new position. -/
structure StepFacts (s : Permutations) (m : Nat) (s' : Permutations) : Prop where
  hnext : s.next = some (some s'.perm, s')
  hn : s'.n = s.n
  hinit : s'.is_initiated = s.is_initiated
  hfin : s'.is_finished = s.is_finished
  hInv : InvRun s'
  hrank : rankP s'.perm = rankP s.perm + 1
  hswap : ∃ t, t + 1 < s.n ∧ s'.perm = swapAdj s.perm t ∧
    ((dvalOf s m = 1 ∧ posIn s.perm m = t ∧ posIn s'.perm m = t + 1) ∨
     (dvalOf s m = -1 ∧ posIn s.perm m = t + 1 ∧ posIn s'.perm m = t))
  hsettle : (s'.direction.getD (posIn s'.perm m) 0 = 0 ↔
    (posIn s'.perm m = 0 ∨ posIn s'.perm m = s.n - 1 ∨
      m < s'.perm.getD ((posIn s'.perm m : Int) + dvalOf s m).toNat 0))
  hupdate : ∀ v, m < v → v < s.n → s'.direction.getD (posIn s'.perm v) 0 =
    if posIn s'.perm v < posIn s'.perm m then 1 else -1

section StepPos

variable {s : Permutations} {m : Nat}

/-- In the moving-right case the slot to the right of `m` exists. -/
theorem spos_ht (hInv : InvRun s) (hmn : m < s.n) (hd1 : dvalOf s m = 1) :
    posIn s.perm m + 1 < s.n := by
  have h0 : 0 < m := hInv.mobile_pos (by rw [hd1]; decide)
  obtain ⟨j, hj, hlt⟩ := (ellAt_pos_iff m).1 (hInv.i4p m h0 hmn hd1).2
  have := posIn_lt hInv.hperm (lt_trans hj hmn)
  omega

/-- The value sitting immediately to the right of the top mobile value is
smaller than it. -/
theorem spos_hw (hInv : InvRun s) (hmn : m < s.n) (hd1 : dvalOf s m = 1)
    (hmtop : ∀ v, m < v → v < s.n → dvalOf s v = 0) :
    s.perm.getD (posIn s.perm m + 1) 0 < m := by
  have ht := spos_ht hInv hmn hd1
  have h0 : 0 < m := hInv.mobile_pos (by rw [hd1]; decide)
  set w := s.perm.getD (posIn s.perm m + 1) 0 with hwdef
  have hwn : w < s.n := getD_lt hInv.hperm ht
  have hposw : posIn s.perm w = posIn s.perm m + 1 := posIn_getD hInv.hperm ht
  have hwm : w ≠ m := by
    intro he
    rw [he] at hposw
    omega
  rcases Nat.lt_or_ge w m with h | h
  · exact h
  · exfalso
    have hwgt : m < w := lt_of_le_of_ne h (Ne.symm hwm)
    have hdw : dvalOf s w = 0 := hmtop w hwgt hwn
    rcases hInv.settled_sides (lt_trans h0 hwgt) hwn hdw with hside | hside
    · have := hside m hwgt
      omega
    · obtain ⟨j, hj, hlt⟩ := (ellAt_pos_iff m).1 (hInv.i4p m h0 hmn hd1).2
      have := hside j (lt_trans hj hwgt)
      omega

theorem spos_pos2_m (hInv : InvRun s) (hmn : m < s.n) (hd1 : dvalOf s m = 1) : posIn (swapAdj s.perm (posIn s.perm m)) m = posIn s.perm m + 1 := by
  have h := posIn_swapAdj_fst hInv.hperm (spos_ht hInv hmn hd1)
  rwa [getD_posIn hInv.hperm hmn] at h

theorem spos_pos2_w (hInv : InvRun s) (hmn : m < s.n) (hd1 : dvalOf s m = 1) : posIn (swapAdj s.perm (posIn s.perm m))
    (s.perm.getD (posIn s.perm m + 1) 0) = posIn s.perm m :=
  posIn_swapAdj_snd hInv.hperm (spos_ht hInv hmn hd1)

theorem spos_pos2_other (hInv : InvRun s) (hmn : m < s.n) (hd1 : dvalOf s m = 1) {u : Nat} (hu : u < s.n) (hum : u ≠ m)
    (huw : u ≠ s.perm.getD (posIn s.perm m + 1) 0) :
    posIn (swapAdj s.perm (posIn s.perm m)) u = posIn s.perm u := by
  apply posIn_swapAdj_other hInv.hperm (spos_ht hInv hmn hd1) hu _ huw
  rwa [getD_posIn hInv.hperm hmn]

theorem spos_ell2_m (hInv : InvRun s) (hmn : m < s.n) (hd1 : dvalOf s m = 1) (hmtop : ∀ v, m < v → v < s.n → dvalOf s v = 0) : ellAt (swapAdj s.perm (posIn s.perm m)) m + 1 = ellAt s.perm m := by
  have h := ellAt_swapAdj_max_fst hInv.hperm (spos_ht hInv hmn hd1)
    (by rw [getD_posIn hInv.hperm hmn]; exact spos_hw hInv hmn hd1 hmtop)
  rwa [getD_posIn hInv.hperm hmn] at h

theorem spos_ell2_other (hInv : InvRun s) (hmn : m < s.n) (hd1 : dvalOf s m = 1) (hmtop : ∀ v, m < v → v < s.n → dvalOf s v = 0) {u : Nat} (hu : u < s.n) (hum : u ≠ m) :
    ellAt (swapAdj s.perm (posIn s.perm m)) u = ellAt s.perm u := by
  by_cases huw : u = s.perm.getD (posIn s.perm m + 1) 0
  · subst huw
    have h := ellAt_swapAdj_min_snd hInv.hperm (spos_ht hInv hmn hd1)
      (by rw [getD_posIn hInv.hperm hmn]; exact spos_hw hInv hmn hd1 hmtop)
    exact h
  · apply ellAt_swapAdj_of_ne hInv.hperm (spos_ht hInv hmn hd1) hu _ huw
    rwa [getD_posIn hInv.hperm hmn]

theorem spos_psum_le (hInv : InvRun s) (hmn : m < s.n) (hd1 : dvalOf s m = 1) (hmtop : ∀ v, m < v → v < s.n → dvalOf s v = 0) {u : Nat} (hu : u ≤ m) :
    psum (swapAdj s.perm (posIn s.perm m)) u = psum s.perm u := by
  unfold psum
  apply Finset.sum_congr rfl
  intro j hj
  rw [Finset.mem_range] at hj
  exact spos_ell2_other hInv hmn hd1 hmtop (by omega) (by omega)

theorem spos_psum_gt (hInv : InvRun s) (hmn : m < s.n) (hd1 : dvalOf s m = 1) (hmtop : ∀ v, m < v → v < s.n → dvalOf s v = 0) {u : Nat} (hum : m < u) (hu : u ≤ s.n) :
    psum (swapAdj s.perm (posIn s.perm m)) u + 1 = psum s.perm u := by
  unfold psum
  rw [Finset.sum_eq_sum_diff_singleton_add (Finset.mem_range.2 hum),
    Finset.sum_eq_sum_diff_singleton_add (Finset.mem_range.2 hum)
      (fun j => ellAt s.perm j)]
  have hcongr : ∑ j ∈ Finset.range u \ {m}, ellAt (swapAdj s.perm (posIn s.perm m)) j
      = ∑ j ∈ Finset.range u \ {m}, ellAt s.perm j := by
    apply Finset.sum_congr rfl
    intro j hj
    rw [Finset.mem_sdiff, Finset.mem_range, Finset.mem_singleton] at hj
    exact spos_ell2_other hInv hmn hd1 hmtop (by omega) hj.2
  rw [hcongr]
  have h := spos_ell2_m hInv hmn hd1 hmtop
  omega

theorem spos_digit_lt (hInv : InvRun s) (hmn : m < s.n) (hd1 : dvalOf s m = 1) (hmtop : ∀ v, m < v → v < s.n → dvalOf s v = 0) {u : Nat} (hu : u < m) :
    digitAt (swapAdj s.perm (posIn s.perm m)) u = digitAt s.perm u := by
  unfold digitAt
  rw [spos_psum_le hInv hmn hd1 hmtop (le_of_lt hu),
    spos_ell2_other hInv hmn hd1 hmtop (lt_trans hu hmn) (Nat.ne_of_lt hu)]

theorem spos_digit_m (hInv : InvRun s) (hmn : m < s.n) (hd1 : dvalOf s m = 1) (hmtop : ∀ v, m < v → v < s.n → dvalOf s v = 0) : digitAt (swapAdj s.perm (posIn s.perm m)) m = digitAt s.perm m + 1 := by
  have h0 : 0 < m := hInv.mobile_pos (by rw [hd1]; decide)
  have hodd := (hInv.i4p m h0 hmn hd1).1
  unfold digitAt
  rw [spos_psum_le hInv hmn hd1 hmtop (le_refl m)]
  rw [if_neg (by omega), if_neg (by omega)]
  have h1 := spos_ell2_m hInv hmn hd1 hmtop
  have h2 := ellAt_le s.perm m
  have h3 := (hInv.i4p m h0 hmn hd1).2
  omega

theorem spos_digit_gt (hInv : InvRun s) (hmn : m < s.n) (hd1 : dvalOf s m = 1) (hmtop : ∀ v, m < v → v < s.n → dvalOf s v = 0) {u : Nat} (hum : m < u) (hu : u < s.n) :
    digitAt s.perm u = u ∧ digitAt (swapAdj s.perm (posIn s.perm m)) u = 0 := by
  have hdu := hmtop u hum hu
  have h0u : 0 < u := Nat.lt_of_le_of_lt (Nat.zero_le m) hum
  have hpar := spos_psum_gt hInv hmn hd1 hmtop hum (le_of_lt hu)
  have hell := spos_ell2_other hInv hmn hd1 hmtop hu (Nat.ne_of_gt hum)
  rcases hInv.i40 u h0u hu hdu with ⟨he, hl⟩ | ⟨ho, hl⟩
  · constructor
    · unfold digitAt
      rw [if_pos he]
      exact hl
    · unfold digitAt
      rw [if_neg (by omega), hell, hl]
      omega
  · constructor
    · unfold digitAt
      rw [if_neg (by omega), hl]
      omega
    · unfold digitAt
      rw [if_pos (by omega), hell]
      exact hl

theorem spos_rank (hInv : InvRun s) (hmn : m < s.n) (hd1 : dvalOf s m = 1) (hmtop : ∀ v, m < v → v < s.n → dvalOf s v = 0) : rankP (swapAdj s.perm (posIn s.perm m)) = rankP s.perm + 1 := by
  unfold rankP
  rw [swapAdj_length, hInv.plen]
  exact digit_sum_step s.n m (digitAt s.perm) (digitAt (swapAdj s.perm (posIn s.perm m))) hmn
    (fun v hv => spos_digit_lt hInv hmn hd1 hmtop hv)
    (spos_digit_m hInv hmn hd1 hmtop)
    (fun v h1 h2 => spos_digit_gt hInv hmn hd1 hmtop h1 h2)

/-- Symbolic execution of one advance call when the top mobile value `m`
moves right: the call succeeds, the permutation becomes the adjacent swap
at `m`'s old slot, and the new direction vector is described slot by
slot. -/
theorem spos_exec (hInv : InvRun s) (hInit : s.is_initiated = true)
    (hFin : s.is_finished = false) (hmn : m < s.n) (hd1 : dvalOf s m = 1)
    (hmtop : ∀ v, m < v → v < s.n → dvalOf s v = 0) :
    ∃ dir3 : List Int,
      s.next = some (some (swapAdj s.perm (posIn s.perm m)),
        { s with perm := swapAdj s.perm (posIn s.perm m), direction := dir3 }) ∧
      dir3.length = s.n ∧
      ∀ q, q < s.n →
        dir3.getD q 0 =
          if m < s.perm.getD q 0 then (if q < posIn s.perm m + 1 then 1 else -1)
          else if q = posIn s.perm m + 1 then
            (if posIn s.perm m + 1 = s.n - 1 ∨ m < s.perm.getD (posIn s.perm m + 2) 0
              then 0 else 1)
          else if q = posIn s.perm m then s.direction.getD (posIn s.perm m + 1) 0
          else s.direction.getD q 0 := by
  have ht : posIn s.perm m + 1 < s.n := spos_ht hInv hmn hd1
  have hplen : s.perm.length = s.n := hInv.plen
  have hdlen : s.direction.length = s.n := hInv.dlen
  have hdt : s.direction.getD (posIn s.perm m) 0 = 1 := hd1
  obtain ⟨rp, hrp, hrplen, hrpget⟩ := inverse_perm_of_perm hInv.hperm
  have hbounds : ∀ j, j < s.n → j < rp.length ∧ rp.getD j 0 < s.direction.length := by
    intro j hj
    exact ⟨by omega, by rw [hrpget j hj, hdlen]; exact posIn_lt hInv.hperm hj⟩
  have hfl : find_loop rp s.direction s.n 0 0 (List.range s.n).reverse =
      some (m, posIn s.perm m, 1) := by
    have h := find_loop_found rp s.direction s.n m s.n 0 0 hmn hbounds
      (fun j hj1 hj2 => by rw [hrpget j hj2]; exact hmtop j hj1 hj2)
      (by rw [hrpget m hmn, hdt]; decide)
    rwa [hrpget m hmn, hdt] at h
  -- the two swaps
  have htl1 : posIn s.perm m + 1 < s.perm.length := by omega
  have htl0 : posIn s.perm m < s.perm.length := by omega
  have hdl1 : posIn s.perm m + 1 < s.direction.length := by omega
  have hdl0 : posIn s.perm m < s.direction.length := by omega
  have e0 : ((posIn s.perm m : Int)).toNat = posIn s.perm m := by omega
  have e1 : ((posIn s.perm m : Int) + 1).toNat = posIn s.perm m + 1 := by omega
  have hswp : swapI? s.perm (posIn s.perm m : Int) ((posIn s.perm m : Int) + 1) =
      some (swapAdj s.perm (posIn s.perm m)) := by
    rw [swapI?_eq_some_getD s.perm 0 (by omega) (by omega)
      (by omega : ((posIn s.perm m : Int)).toNat < s.perm.length)
      (by omega : ((posIn s.perm m : Int) + 1).toNat < s.perm.length)]
    rw [e0, e1]
    rfl
  have hswd : swapI? s.direction (posIn s.perm m : Int) ((posIn s.perm m : Int) + 1) =
      some ((s.direction.set (posIn s.perm m)
          (s.direction.getD (posIn s.perm m + 1) 0)).set (posIn s.perm m + 1)
          (s.direction.getD (posIn s.perm m) 0)) := by
    rw [swapI?_eq_some_getD s.direction 0 (by omega) (by omega)
      (by omega : ((posIn s.perm m : Int)).toNat < s.direction.length)
      (by omega : ((posIn s.perm m : Int) + 1).toNat < s.direction.length)]
    rw [e0, e1]
  set dir1 : List Int := (s.direction.set (posIn s.perm m)
      (s.direction.getD (posIn s.perm m + 1) 0)).set (posIn s.perm m + 1)
      (s.direction.getD (posIn s.perm m) 0) with hdir1def
  have hdir1len : dir1.length = s.n := by
    rw [hdir1def]
    simp [hdlen]
  have hdir1_t1 : dir1.getD (posIn s.perm m + 1) 0 = s.direction.getD (posIn s.perm m) 0 := by
    rw [hdir1def]
    exact swap_getD_right _ _ hdl1 _ _ _
  have hdir1_t : dir1.getD (posIn s.perm m) 0 = s.direction.getD (posIn s.perm m + 1) 0 := by
    rw [hdir1def]
    exact swap_getD_left _ (by omega) hdl0 _ _ _
  have hdir1_o : ∀ q, q ≠ posIn s.perm m → q ≠ posIn s.perm m + 1 →
      dir1.getD q 0 = s.direction.getD q 0 := by
    intro q h1 h2
    rw [hdir1def]
    exact swap_getD_other _ h1 h2 _ _ _
  have hupdb : ∀ dir2 : List Int, dir2.length = s.n →
      ∀ j ∈ List.range' (m + 1) (s.n - (m + 1)), j < rp.length ∧ rp.getD j 0 < dir2.length := by
    intro dir2 hlen2 j hjmem
    rw [List.mem_range'_1] at hjmem
    have hjn : j < s.n := by omega
    refine ⟨by omega, ?_⟩
    rw [hrpget j hjn, hlen2]
    exact posIn_lt hInv.hperm hjn
  obtain ⟨d3set, hupdSet, hlenSet, hgetSet⟩ := update_loop_spec rp ((posIn s.perm m : Int) + 1)
    (List.range' (m + 1) (s.n - (m + 1))) (dir1.set (posIn s.perm m + 1) 0)
    (hupdb _ (by simp [hdir1len]))
  obtain ⟨d3id, hupdId, hlenId, hgetId⟩ := update_loop_spec rp ((posIn s.perm m : Int) + 1)
    (List.range' (m + 1) (s.n - (m + 1))) dir1 (hupdb _ hdir1len)
  have hjs : ∀ q, q < s.n →
      ((∃ j ∈ List.range' (m + 1) (s.n - (m + 1)), rp.getD j 0 = q) ↔ m < s.perm.getD q 0) := by
    intro q hq
    constructor
    · rintro ⟨j, hjmem, hjq⟩
      rw [List.mem_range'_1] at hjmem
      have hjn : j < s.n := by omega
      rw [hrpget j hjn] at hjq
      have := getD_posIn hInv.hperm hjn
      rw [hjq] at this
      omega
    · intro hbig
      refine ⟨s.perm.getD q 0, ?_, ?_⟩
      · rw [List.mem_range'_1]
        have := getD_lt hInv.hperm hq
        omega
      · rw [hrpget _ (getD_lt hInv.hperm hq)]
        exact posIn_getD hInv.hperm hq
  -- pointwise description of the two update-loop outcomes
  have hpointSet : (posIn s.perm m + 1 = s.n - 1 ∨ m < s.perm.getD (posIn s.perm m + 2) 0) →
      ∀ q, q < s.n → d3set.getD q 0 =
        if m < s.perm.getD q 0 then (if q < posIn s.perm m + 1 then 1 else -1)
        else if q = posIn s.perm m + 1 then
          (if posIn s.perm m + 1 = s.n - 1 ∨ m < s.perm.getD (posIn s.perm m + 2) 0
            then 0 else 1)
        else if q = posIn s.perm m then s.direction.getD (posIn s.perm m + 1) 0
        else s.direction.getD q 0 := by
    intro hsc q hq
    rw [hgetSet q]
    by_cases hbig : m < s.perm.getD q 0
    · rw [if_pos ((hjs q hq).2 hbig), if_pos hbig,
        if_congr (show ((q : Int) < (posIn s.perm m : Int) + 1) ↔ q < posIn s.perm m + 1
          by omega) rfl rfl]
    · rw [if_neg (fun hc => hbig ((hjs q hq).1 hc)), if_neg hbig]
      by_cases hq1 : q = posIn s.perm m + 1
      · subst hq1
        rw [getD_set_self _ (by omega), if_pos rfl, if_pos hsc]
      · rw [getD_set_ne _ (fun he => hq1 he.symm), if_neg hq1]
        by_cases hq0 : q = posIn s.perm m
        · subst hq0
          rw [hdir1_t, if_pos rfl]
        · rw [hdir1_o q hq0 hq1, if_neg hq0]
  have hpointId : ¬(posIn s.perm m + 1 = s.n - 1 ∨ m < s.perm.getD (posIn s.perm m + 2) 0) →
      ∀ q, q < s.n → d3id.getD q 0 =
        if m < s.perm.getD q 0 then (if q < posIn s.perm m + 1 then 1 else -1)
        else if q = posIn s.perm m + 1 then
          (if posIn s.perm m + 1 = s.n - 1 ∨ m < s.perm.getD (posIn s.perm m + 2) 0
            then 0 else 1)
        else if q = posIn s.perm m then s.direction.getD (posIn s.perm m + 1) 0
        else s.direction.getD q 0 := by
    intro hsc q hq
    rw [hgetId q]
    by_cases hbig : m < s.perm.getD q 0
    · rw [if_pos ((hjs q hq).2 hbig), if_pos hbig,
        if_congr (show ((q : Int) < (posIn s.perm m : Int) + 1) ↔ q < posIn s.perm m + 1
          by omega) rfl rfl]
    · rw [if_neg (fun hc => hbig ((hjs q hq).1 hc)), if_neg hbig]
      by_cases hq1 : q = posIn s.perm m + 1
      · subst hq1
        rw [hdir1_t1, hdt, if_pos rfl, if_neg hsc]
      · rw [if_neg hq1]
        by_cases hq0 : q = posIn s.perm m
        · subst hq0
          rw [hdir1_t, if_pos rfl]
        · rw [hdir1_o q hq0 hq1, if_neg hq0]
  -- run the pipeline
  unfold Permutations.next
  rw [hInit, hFin]
  rw [if_neg (show ¬(true = false) by simp), if_neg (show ¬(false = true) by simp)]
  rw [hrp]
  dsimp only
  rw [hfl]
  dsimp only
  rw [if_neg (show ¬(m = s.n) by omega)]
  rw [hswp]
  dsimp only
  rw [hswd]
  dsimp only
  rw [if_neg (show ¬((posIn s.perm m : Int) + 1 = 0) by omega)]
  by_cases hedge : posIn s.perm m + 1 = s.n - 1
  · rw [if_pos (show (posIn s.perm m : Int) + 1 = (s.n : Int) - 1 by omega)]
    dsimp only
    rw [if_pos rfl]
    have hsetI : setI? dir1 ((posIn s.perm m : Int) + 1) 0
        = some (dir1.set (posIn s.perm m + 1) 0) := by
      unfold setI? set?
      rw [if_pos (show (0 : Int) ≤ (posIn s.perm m : Int) + 1 by omega)]
      rw [if_pos (show ((posIn s.perm m : Int) + 1).toNat < dir1.length by
        rw [hdir1len]; omega)]
      rw [e1]
    rw [hsetI]
    dsimp only
    rw [hupdSet]
    dsimp only
    exact ⟨d3set, rfl, by rw [hlenSet]; simp [hdir1len],
      hpointSet (Or.inl hedge)⟩
  · rw [if_neg (show ¬((posIn s.perm m : Int) + 1 = (s.n : Int) - 1) by omega)]
    have hgetI : getI? (swapAdj s.perm (posIn s.perm m)) ((posIn s.perm m : Int) + 1 + 1)
        = some (s.perm.getD (posIn s.perm m + 2) 0) := by
      have hb2 : posIn s.perm m + 2 < s.n := by omega
      have e2 : ((posIn s.perm m : Int) + 1 + 1).toNat = posIn s.perm m + 2 := by omega
      rw [getI?_eq_some_getElem _ (by omega)
        (by rw [e2, swapAdj_length, hplen]; omega)]
      rw [← getD_eq_getElem _ (by rw [swapAdj_length, hplen]; omega : ((posIn s.perm m : Int) + 1 + 1).toNat < (swapAdj s.perm (posIn s.perm m)).length) 0]
      rw [e2]
      congr 1
      apply swapAdj_getD_other <;> omega
    rw [hgetI]
    dsimp only
    by_cases hy : m < s.perm.getD (posIn s.perm m + 2) 0
    · rw [if_pos (decide_eq_true hy)]
      have hsetI : setI? dir1 ((posIn s.perm m : Int) + 1) 0
          = some (dir1.set (posIn s.perm m + 1) 0) := by
        unfold setI? set?
        rw [if_pos (show (0 : Int) ≤ (posIn s.perm m : Int) + 1 by omega)]
        rw [if_pos (show ((posIn s.perm m : Int) + 1).toNat < dir1.length by
          rw [hdir1len]; omega)]
        rw [e1]
      rw [hsetI]
      dsimp only
      rw [hupdSet]
      dsimp only
      exact ⟨d3set, rfl, by rw [hlenSet]; simp [hdir1len],
        hpointSet (Or.inr hy)⟩
    · rw [if_neg (show ¬(decide (m < s.perm.getD (posIn s.perm m + 2) 0) = true) by
        rw [decide_eq_false hy]; simp)]
      dsimp only
      rw [hupdId]
      dsimp only
      exact ⟨d3id, rfl, by rw [hlenId, hdir1len],
        hpointId (by tauto)⟩

/-- A full SJT step in the moving-right case. -/
theorem spos_stepfacts (hInv : InvRun s) (hInit : s.is_initiated = true)
    (hFin : s.is_finished = false) (hmn : m < s.n) (hd1 : dvalOf s m = 1)
    (hmtop : ∀ v, m < v → v < s.n → dvalOf s v = 0) :
    ∃ s', StepFacts s m s' := by
  obtain ⟨dir3, hnext, hlen3, hdesc⟩ := spos_exec hInv hInit hFin hmn hd1 hmtop
  have ht : posIn s.perm m + 1 < s.n := spos_ht hInv hmn hd1
  have h0 : 0 < m := hInv.mobile_pos (by rw [hd1]; decide)
  have hgdt : s.perm.getD (posIn s.perm m) 0 = m := getD_posIn hInv.hperm hmn
  have hw : s.perm.getD (posIn s.perm m + 1) 0 < m := spos_hw hInv hmn hd1 hmtop
  have hwn : s.perm.getD (posIn s.perm m + 1) 0 < s.n := getD_lt hInv.hperm ht
  have hposw : posIn s.perm (s.perm.getD (posIn s.perm m + 1) 0) = posIn s.perm m + 1 :=
    posIn_getD hInv.hperm ht
  have hp2 : (swapAdj s.perm (posIn s.perm m)).Perm (List.range s.n) :=
    swapAdj_is_perm hInv.hperm ht
  have hpos2m : posIn (swapAdj s.perm (posIn s.perm m)) m = posIn s.perm m + 1 :=
    spos_pos2_m hInv hmn hd1
  have hpos2w : posIn (swapAdj s.perm (posIn s.perm m))
      (s.perm.getD (posIn s.perm m + 1) 0) = posIn s.perm m :=
    spos_pos2_w hInv hmn hd1
  -- value-indexed view of the new direction vector
  have hval_lt : ∀ u, u < m → dir3.getD (posIn (swapAdj s.perm (posIn s.perm m)) u) 0
      = dvalOf s u := by
    intro u hu
    have hun : u < s.n := lt_trans hu hmn
    by_cases huw : u = s.perm.getD (posIn s.perm m + 1) 0
    · subst huw
      rw [hpos2w, hdesc _ (by omega), if_neg (by omega), if_neg (by omega), if_pos rfl]
      unfold dvalOf
      rw [hposw]
    · have hq := spos_pos2_other hInv hmn hd1 hun (by omega) huw
      rw [hq]
      have hqn : posIn s.perm u < s.n := posIn_lt hInv.hperm hun
      have hgq : s.perm.getD (posIn s.perm u) 0 = u := getD_posIn hInv.hperm hun
      have hq1 : posIn s.perm u ≠ posIn s.perm m + 1 := by
        intro he
        apply huw
        rw [← hgq, he]
      have hq0 : posIn s.perm u ≠ posIn s.perm m := by
        intro he
        have := posIn_inj hInv.hperm hun hmn he
        omega
      rw [hdesc _ hqn, if_neg (by omega), if_neg hq1, if_neg hq0]
      rfl
  have hval_m : dir3.getD (posIn (swapAdj s.perm (posIn s.perm m)) m) 0
      = if posIn s.perm m + 1 = s.n - 1 ∨ m < s.perm.getD (posIn s.perm m + 2) 0
        then 0 else 1 := by
    rw [hpos2m, hdesc _ ht, if_neg (by omega), if_pos rfl]
  have hval_gt : ∀ u, m < u → u < s.n →
      dir3.getD (posIn (swapAdj s.perm (posIn s.perm m)) u) 0
      = if posIn s.perm u < posIn s.perm m + 1 then 1 else -1 := by
    intro u hmu hun
    have huw : u ≠ s.perm.getD (posIn s.perm m + 1) 0 := by omega
    have hq := spos_pos2_other hInv hmn hd1 hun (by omega) huw
    rw [hq]
    have hqn : posIn s.perm u < s.n := posIn_lt hInv.hperm hun
    have hgq : s.perm.getD (posIn s.perm u) 0 = u := getD_posIn hInv.hperm hun
    rw [hdesc _ hqn, if_pos (by omega)]
  -- the settle condition is equivalent to the digit of m reaching zero
  have hkey : (posIn s.perm m + 1 = s.n - 1 ∨ m < s.perm.getD (posIn s.perm m + 2) 0)
      ↔ ellAt (swapAdj s.perm (posIn s.perm m)) m = 0 := by
    constructor
    · intro hsc
      rw [ellAt_eq_zero_iff hp2 hmn]
      rcases hsc with hedge | hy
      · intro j hj
        have hjn : j < s.n := lt_trans hj hmn
        have h1 : posIn (swapAdj s.perm (posIn s.perm m)) j < s.n := posIn_lt hp2 hjn
        have h2 : posIn (swapAdj s.perm (posIn s.perm m)) j
            ≠ posIn (swapAdj s.perm (posIn s.perm m)) m := by
          intro he
          have := posIn_inj hp2 hjn hmn he
          omega
        rw [hpos2m] at h2 ⊢
        omega
      · have hyn : posIn s.perm m + 2 < s.n := by
          by_contra hc
          rw [List.getD_eq_default _ _ (by rw [hInv.plen]; omega)] at hy
          omega
        have hyv : s.perm.getD (posIn s.perm m + 2) 0 < s.n := getD_lt hInv.hperm hyn
        have hposy : posIn s.perm (s.perm.getD (posIn s.perm m + 2) 0)
            = posIn s.perm m + 2 := posIn_getD hInv.hperm hyn
        have hdy : dvalOf s (s.perm.getD (posIn s.perm m + 2) 0) = 0 := hmtop _ hy hyv
        rcases hInv.settled_sides (by omega) hyv hdy with hside | hside
        · have := hside m hy
          omega
        · intro j hj
          have hjn : j < s.n := lt_trans hj hmn
          by_cases hjw : j = s.perm.getD (posIn s.perm m + 1) 0
          · subst hjw
            rw [hpos2w, hpos2m]
            omega
          · have hq := spos_pos2_other hInv hmn hd1 hjn (by omega) hjw
            rw [hq, hpos2m]
            have hjy := hside j (by omega)
            rw [hposy] at hjy
            have hj1 : posIn s.perm j ≠ posIn s.perm m + 1 := by
              intro he
              apply hjw
              rw [← getD_posIn hInv.hperm hjn, he]
            omega
    · intro hzero
      by_contra hsc
      push_neg at hsc
      obtain ⟨hedge, hy⟩ := hsc
      have hyn : posIn s.perm m + 2 < s.n := by omega
      have hyv : s.perm.getD (posIn s.perm m + 2) 0 < s.n := getD_lt hInv.hperm hyn
      have hposy : posIn s.perm (s.perm.getD (posIn s.perm m + 2) 0)
          = posIn s.perm m + 2 := posIn_getD hInv.hperm hyn
      have hym : s.perm.getD (posIn s.perm m + 2) 0 ≠ m := by
        intro he
        rw [he] at hposy
        omega
      have hylt : s.perm.getD (posIn s.perm m + 2) 0 < m := by omega
      have hyw : s.perm.getD (posIn s.perm m + 2) 0
          ≠ s.perm.getD (posIn s.perm m + 1) 0 := by
        intro he
        rw [he, hposw] at hposy
        omega
      have hq := spos_pos2_other hInv hmn hd1 hyv hym hyw
      have : 0 < ellAt (swapAdj s.perm (posIn s.perm m)) m := by
        rw [ellAt_pos_iff]
        refine ⟨s.perm.getD (posIn s.perm m + 2) 0, hylt, ?_⟩
        rw [hq, hposy, hpos2m]
        omega
      omega
  have hoddm := (hInv.i4p m h0 hmn hd1).1
  have hpsm : psum (swapAdj s.perm (posIn s.perm m)) m = psum s.perm m :=
    spos_psum_le hInv hmn hd1 hmtop (le_refl m)
  have hellm : ellAt (swapAdj s.perm (posIn s.perm m)) m + 1 = ellAt s.perm m :=
    spos_ell2_m hInv hmn hd1 hmtop
  -- assemble the new state
  refine ⟨{ s with perm := swapAdj s.perm (posIn s.perm m), direction := dir3 },
    hnext, rfl, rfl, rfl, ?_, spos_rank hInv hmn hd1 hmtop, ?_, ?_, ?_⟩
  · -- the invariant for the new state
    refine ⟨hInv.hn, by rw [swapAdj_length, hInv.plen], hlen3, hp2, ?_, ?_, ?_, ?_, ?_⟩
    · show dir3.getD (posIn (swapAdj s.perm (posIn s.perm m)) 0) 0 = 0
      rw [hval_lt 0 h0]
      exact hInv.d0
    · intro q hq
      show dir3.getD q 0 = -1 ∨ dir3.getD q 0 = 0 ∨ dir3.getD q 0 = 1
      rw [hdesc q hq]
      by_cases h1 : m < s.perm.getD q 0
      · rw [if_pos h1]
        split
        · right; right; rfl
        · left; rfl
      · rw [if_neg h1]
        by_cases h2 : q = posIn s.perm m + 1
        · rw [if_pos h2]
          split
          · right; left; rfl
          · right; right; rfl
        · rw [if_neg h2]
          by_cases h3 : q = posIn s.perm m
          · rw [if_pos h3]
            exact hInv.dmem _ ht
          · rw [if_neg h3]
            exact hInv.dmem _ hq
    · -- i4m
      intro v h0v hv hd
      replace hd : dir3.getD (posIn (swapAdj s.perm (posIn s.perm m)) v) 0 = -1 := hd
      show psum (swapAdj s.perm (posIn s.perm m)) v % 2 = 0
        ∧ ellAt (swapAdj s.perm (posIn s.perm m)) v < v
      rcases Nat.lt_trichotomy v m with hvm | hvm | hvm
      · rw [hval_lt v hvm] at hd
        have := hInv.i4m v h0v hv hd
        rw [spos_psum_le hInv hmn hd1 hmtop (le_of_lt hvm),
          spos_ell2_other hInv hmn hd1 hmtop hv (by omega)]
        exact this
      · subst hvm
        rw [hval_m] at hd
        exfalso
        by_cases hsc : posIn s.perm v + 1 = s.n - 1 ∨ v < s.perm.getD (posIn s.perm v + 2) 0
        · rw [if_pos hsc] at hd
          exact absurd hd (by decide)
        · rw [if_neg hsc] at hd
          exact absurd hd (by decide)
      · rw [hval_gt v hvm hv] at hd
        have hdv0 : dvalOf s v = 0 := hmtop v hvm hv
        have hpar := spos_psum_gt hInv hmn hd1 hmtop hvm (le_of_lt hv)
        have hell := spos_ell2_other hInv hmn hd1 hmtop hv (by omega)
        rcases hInv.i40 v h0v hv hdv0 with ⟨he, hl⟩ | ⟨ho, hl⟩
        · exfalso
          have := (ellAt_eq_self_iff v).1 hl m hvm
          rw [if_pos (by omega)] at hd
          exact absurd hd (by decide)
        · have hleft := (ellAt_eq_zero_iff hInv.hperm hv).1 hl m hvm
          constructor
          · omega
          · rw [hell, hl]
            omega
    · -- i4p
      intro v h0v hv hd
      replace hd : dir3.getD (posIn (swapAdj s.perm (posIn s.perm m)) v) 0 = 1 := hd
      show psum (swapAdj s.perm (posIn s.perm m)) v % 2 = 1
        ∧ 0 < ellAt (swapAdj s.perm (posIn s.perm m)) v
      rcases Nat.lt_trichotomy v m with hvm | hvm | hvm
      · rw [hval_lt v hvm] at hd
        have := hInv.i4p v h0v hv hd
        rw [spos_psum_le hInv hmn hd1 hmtop (le_of_lt hvm),
          spos_ell2_other hInv hmn hd1 hmtop hv (by omega)]
        exact this
      · subst hvm
        rw [hval_m] at hd
        by_cases hsc : posIn s.perm v + 1 = s.n - 1 ∨ v < s.perm.getD (posIn s.perm v + 2) 0
        · rw [if_pos hsc] at hd
          exact absurd hd (by decide)
        · refine ⟨by omega, ?_⟩
          have := (not_iff_not.2 hkey).1 hsc
          omega
      · rw [hval_gt v hvm hv] at hd
        have hdv0 : dvalOf s v = 0 := hmtop v hvm hv
        have hpar := spos_psum_gt hInv hmn hd1 hmtop hvm (le_of_lt hv)
        have hell := spos_ell2_other hInv hmn hd1 hmtop hv (by omega)
        rcases hInv.i40 v h0v hv hdv0 with ⟨he, hl⟩ | ⟨ho, hl⟩
        · constructor
          · omega
          · rw [hell, hl]
            omega
        · exfalso
          have hleft := (ellAt_eq_zero_iff hInv.hperm hv).1 hl m hvm
          have hvw : v ≠ s.perm.getD (posIn s.perm m + 1) 0 := by omega
          have hv1 : posIn s.perm v ≠ posIn s.perm m + 1 := by
            intro he
            apply hvw
            rw [← getD_posIn hInv.hperm hv, he]
          rw [if_neg (by omega)] at hd
          exact absurd hd (by decide)
    · -- i40
      intro v h0v hv hd
      replace hd : dir3.getD (posIn (swapAdj s.perm (posIn s.perm m)) v) 0 = 0 := hd
      show (psum (swapAdj s.perm (posIn s.perm m)) v % 2 = 0
          ∧ ellAt (swapAdj s.perm (posIn s.perm m)) v = v)
        ∨ (psum (swapAdj s.perm (posIn s.perm m)) v % 2 = 1
          ∧ ellAt (swapAdj s.perm (posIn s.perm m)) v = 0)
      rcases Nat.lt_trichotomy v m with hvm | hvm | hvm
      · rw [hval_lt v hvm] at hd
        have := hInv.i40 v h0v hv hd
        rw [spos_psum_le hInv hmn hd1 hmtop (le_of_lt hvm),
          spos_ell2_other hInv hmn hd1 hmtop hv (by omega)]
        exact this
      · subst hvm
        rw [hval_m] at hd
        by_cases hsc : posIn s.perm v + 1 = s.n - 1 ∨ v < s.perm.getD (posIn s.perm v + 2) 0
        · right
          refine ⟨by omega, hkey.1 hsc⟩
        · rw [if_neg hsc] at hd
          exact absurd hd (by decide)
      · exfalso
        rw [hval_gt v hvm hv] at hd
        by_cases hpv : posIn s.perm v < posIn s.perm m + 1
        · rw [if_pos hpv] at hd
          exact absurd hd (by decide)
        · rw [if_neg hpv] at hd
          exact absurd hd (by decide)
  · -- the swap description
    refine ⟨posIn s.perm m, ht, rfl, Or.inl ⟨hd1, rfl, hpos2m⟩⟩
  · -- the settle condition
    show dir3.getD (posIn (swapAdj s.perm (posIn s.perm m)) m) 0 = 0 ↔ _
    rw [hval_m, hpos2m, hd1]
    have e2 : (((posIn s.perm m + 1 : Nat) : Int) + 1).toNat = posIn s.perm m + 2 := by omega
    rw [e2]
    have hgo : (swapAdj s.perm (posIn s.perm m)).getD (posIn s.perm m + 2) 0
        = s.perm.getD (posIn s.perm m + 2) 0 := by
      apply swapAdj_getD_other <;> omega
    rw [hgo]
    by_cases hsc : posIn s.perm m + 1 = s.n - 1 ∨ m < s.perm.getD (posIn s.perm m + 2) 0
    · rw [if_pos hsc]
      constructor
      · intro _
        rcases hsc with h | h
        · exact Or.inr (Or.inl h)
        · exact Or.inr (Or.inr h)
      · intro _
        rfl
    · rw [if_neg hsc]
      constructor
      · intro hc
        exact absurd hc (by decide)
      · intro hc
        exfalso
        rcases hc with hc | hc | hc
        · omega
        · exact hsc (Or.inl hc)
        · exact hsc (Or.inr hc)
  · -- the update of larger values
    intro v hmv hvn
    show dir3.getD (posIn (swapAdj s.perm (posIn s.perm m)) v) 0 = _
    rw [hval_gt v hmv hvn, hpos2m]
    have hvw : v ≠ s.perm.getD (posIn s.perm m + 1) 0 := by
      have := spos_hw hInv hmn hd1 hmtop
      omega
    rw [spos_pos2_other hInv hmn hd1 hvn (by omega) hvw]

/-- In the moving-left case the slot to the left of `m` exists. -/
theorem sneg_ht (hInv : InvRun s) (hmn : m < s.n) (hd1 : dvalOf s m = -1) :
    1 ≤ posIn s.perm m := by
  have h0 : 0 < m := hInv.mobile_pos (by rw [hd1]; decide)
  obtain ⟨j, hj, hlt⟩ := (ellAt_lt_self_iff hInv.hperm hmn).1 (hInv.i4m m h0 hmn hd1).2
  omega

/-- The value sitting immediately to the left of the top mobile value is
smaller than it. -/
theorem sneg_hw (hInv : InvRun s) (hmn : m < s.n) (hd1 : dvalOf s m = -1)
    (hmtop : ∀ v, m < v → v < s.n → dvalOf s v = 0) :
    s.perm.getD (posIn s.perm m - 1) 0 < m := by
  have ht := sneg_ht hInv hmn hd1
  have h0 : 0 < m := hInv.mobile_pos (by rw [hd1]; decide)
  have hposn : posIn s.perm m < s.n := posIn_lt hInv.hperm hmn
  have htn : posIn s.perm m - 1 < s.n := by omega
  have hwn : s.perm.getD (posIn s.perm m - 1) 0 < s.n := getD_lt hInv.hperm htn
  have hposw : posIn s.perm (s.perm.getD (posIn s.perm m - 1) 0) = posIn s.perm m - 1 :=
    posIn_getD hInv.hperm htn
  have hwm : s.perm.getD (posIn s.perm m - 1) 0 ≠ m := by
    intro he
    rw [he] at hposw
    omega
  rcases Nat.lt_or_ge (s.perm.getD (posIn s.perm m - 1) 0) m with h | h
  · exact h
  · exfalso
    have hwgt : m < s.perm.getD (posIn s.perm m - 1) 0 := by omega
    have hdw : dvalOf s (s.perm.getD (posIn s.perm m - 1) 0) = 0 := hmtop _ hwgt hwn
    rcases hInv.settled_sides (by omega) hwn hdw with hside | hside
    · obtain ⟨j, hj, hlt⟩ := (ellAt_lt_self_iff hInv.hperm hmn).1 (hInv.i4m m h0 hmn hd1).2
      have := hside j (by omega)
      omega
    · have := hside m hwgt
      omega

theorem sneg_pos2_m (hInv : InvRun s) (hmn : m < s.n) (hd1 : dvalOf s m = -1) :
    posIn (swapAdj s.perm (posIn s.perm m - 1)) m = posIn s.perm m - 1 := by
  have ht1 := sneg_ht hInv hmn hd1
  have hposn : posIn s.perm m < s.n := posIn_lt hInv.hperm hmn
  have e : posIn s.perm m - 1 + 1 = posIn s.perm m := by omega
  have h := posIn_swapAdj_snd hInv.hperm (t := posIn s.perm m - 1) (by omega)
  rwa [e, getD_posIn hInv.hperm hmn] at h

theorem sneg_pos2_w (hInv : InvRun s) (hmn : m < s.n) (hd1 : dvalOf s m = -1) :
    posIn (swapAdj s.perm (posIn s.perm m - 1))
      (s.perm.getD (posIn s.perm m - 1) 0) = posIn s.perm m := by
  have ht1 := sneg_ht hInv hmn hd1
  have hposn : posIn s.perm m < s.n := posIn_lt hInv.hperm hmn
  have e : posIn s.perm m - 1 + 1 = posIn s.perm m := by omega
  have h := posIn_swapAdj_fst hInv.hperm (t := posIn s.perm m - 1) (by omega)
  rwa [e] at h

theorem sneg_pos2_other (hInv : InvRun s) (hmn : m < s.n) (hd1 : dvalOf s m = -1)
    {u : Nat} (hu : u < s.n) (hum : u ≠ m)
    (huw : u ≠ s.perm.getD (posIn s.perm m - 1) 0) :
    posIn (swapAdj s.perm (posIn s.perm m - 1)) u = posIn s.perm u := by
  have ht1 := sneg_ht hInv hmn hd1
  have hposn : posIn s.perm m < s.n := posIn_lt hInv.hperm hmn
  have e : posIn s.perm m - 1 + 1 = posIn s.perm m := by omega
  apply posIn_swapAdj_other hInv.hperm (by omega) hu huw
  rw [e, getD_posIn hInv.hperm hmn]
  exact hum

theorem sneg_ell2_m (hInv : InvRun s) (hmn : m < s.n) (hd1 : dvalOf s m = -1)
    (hmtop : ∀ v, m < v → v < s.n → dvalOf s v = 0) :
    ellAt (swapAdj s.perm (posIn s.perm m - 1)) m = ellAt s.perm m + 1 := by
  have ht1 := sneg_ht hInv hmn hd1
  have hposn : posIn s.perm m < s.n := posIn_lt hInv.hperm hmn
  have e : posIn s.perm m - 1 + 1 = posIn s.perm m := by omega
  have h := ellAt_swapAdj_max_snd hInv.hperm (t := posIn s.perm m - 1) (by omega)
    (by rw [e, getD_posIn hInv.hperm hmn]; exact sneg_hw hInv hmn hd1 hmtop)
  rwa [e, getD_posIn hInv.hperm hmn] at h

theorem sneg_ell2_other (hInv : InvRun s) (hmn : m < s.n) (hd1 : dvalOf s m = -1)
    (hmtop : ∀ v, m < v → v < s.n → dvalOf s v = 0) {u : Nat} (hu : u < s.n) (hum : u ≠ m) :
    ellAt (swapAdj s.perm (posIn s.perm m - 1)) u = ellAt s.perm u := by
  have ht1 := sneg_ht hInv hmn hd1
  have hposn : posIn s.perm m < s.n := posIn_lt hInv.hperm hmn
  have e : posIn s.perm m - 1 + 1 = posIn s.perm m := by omega
  by_cases huw : u = s.perm.getD (posIn s.perm m - 1) 0
  · subst huw
    exact ellAt_swapAdj_min_fst hInv.hperm (by omega)
      (by rw [e, getD_posIn hInv.hperm hmn]; exact sneg_hw hInv hmn hd1 hmtop)
  · apply ellAt_swapAdj_of_ne hInv.hperm (by omega) hu huw
    rw [e, getD_posIn hInv.hperm hmn]
    exact hum

theorem sneg_psum_le (hInv : InvRun s) (hmn : m < s.n) (hd1 : dvalOf s m = -1)
    (hmtop : ∀ v, m < v → v < s.n → dvalOf s v = 0) {u : Nat} (hu : u ≤ m) :
    psum (swapAdj s.perm (posIn s.perm m - 1)) u = psum s.perm u := by
  unfold psum
  apply Finset.sum_congr rfl
  intro j hj
  rw [Finset.mem_range] at hj
  exact sneg_ell2_other hInv hmn hd1 hmtop (by omega) (by omega)

theorem sneg_psum_gt (hInv : InvRun s) (hmn : m < s.n) (hd1 : dvalOf s m = -1)
    (hmtop : ∀ v, m < v → v < s.n → dvalOf s v = 0) {u : Nat} (hum : m < u) (hu : u ≤ s.n) :
    psum (swapAdj s.perm (posIn s.perm m - 1)) u = psum s.perm u + 1 := by
  unfold psum
  rw [Finset.sum_eq_sum_diff_singleton_add (Finset.mem_range.2 hum),
    Finset.sum_eq_sum_diff_singleton_add (Finset.mem_range.2 hum)
      (fun j => ellAt s.perm j)]
  have hcongr : ∑ j ∈ Finset.range u \ {m}, ellAt (swapAdj s.perm (posIn s.perm m - 1)) j
      = ∑ j ∈ Finset.range u \ {m}, ellAt s.perm j := by
    apply Finset.sum_congr rfl
    intro j hj
    rw [Finset.mem_sdiff, Finset.mem_range, Finset.mem_singleton] at hj
    exact sneg_ell2_other hInv hmn hd1 hmtop (by omega) hj.2
  rw [hcongr]
  have h := sneg_ell2_m hInv hmn hd1 hmtop
  omega

theorem sneg_digit_lt (hInv : InvRun s) (hmn : m < s.n) (hd1 : dvalOf s m = -1)
    (hmtop : ∀ v, m < v → v < s.n → dvalOf s v = 0) {u : Nat} (hu : u < m) :
    digitAt (swapAdj s.perm (posIn s.perm m - 1)) u = digitAt s.perm u := by
  unfold digitAt
  rw [sneg_psum_le hInv hmn hd1 hmtop (le_of_lt hu),
    sneg_ell2_other hInv hmn hd1 hmtop (lt_trans hu hmn) (Nat.ne_of_lt hu)]

theorem sneg_digit_m (hInv : InvRun s) (hmn : m < s.n) (hd1 : dvalOf s m = -1)
    (hmtop : ∀ v, m < v → v < s.n → dvalOf s v = 0) :
    digitAt (swapAdj s.perm (posIn s.perm m - 1)) m = digitAt s.perm m + 1 := by
  have h0 : 0 < m := hInv.mobile_pos (by rw [hd1]; decide)
  have heven := (hInv.i4m m h0 hmn hd1).1
  unfold digitAt
  rw [sneg_psum_le hInv hmn hd1 hmtop (le_refl m)]
  rw [if_pos (by omega), if_pos (by omega)]
  exact sneg_ell2_m hInv hmn hd1 hmtop

theorem sneg_digit_gt (hInv : InvRun s) (hmn : m < s.n) (hd1 : dvalOf s m = -1)
    (hmtop : ∀ v, m < v → v < s.n → dvalOf s v = 0) {u : Nat} (hum : m < u) (hu : u < s.n) :
    digitAt s.perm u = u ∧ digitAt (swapAdj s.perm (posIn s.perm m - 1)) u = 0 := by
  have hdu := hmtop u hum hu
  have h0u : 0 < u := Nat.lt_of_le_of_lt (Nat.zero_le m) hum
  have hpar := sneg_psum_gt hInv hmn hd1 hmtop hum (le_of_lt hu)
  have hell := sneg_ell2_other hInv hmn hd1 hmtop hu (Nat.ne_of_gt hum)
  rcases hInv.i40 u h0u hu hdu with ⟨he, hl⟩ | ⟨ho, hl⟩
  · constructor
    · unfold digitAt
      rw [if_pos he]
      exact hl
    · unfold digitAt
      rw [if_neg (by omega), hell, hl]
      omega
  · constructor
    · unfold digitAt
      rw [if_neg (by omega), hl]
      omega
    · unfold digitAt
      rw [if_pos (by omega), hell]
      exact hl

theorem sneg_rank (hInv : InvRun s) (hmn : m < s.n) (hd1 : dvalOf s m = -1)
    (hmtop : ∀ v, m < v → v < s.n → dvalOf s v = 0) :
    rankP (swapAdj s.perm (posIn s.perm m - 1)) = rankP s.perm + 1 := by
  unfold rankP
  rw [swapAdj_length, hInv.plen]
  exact digit_sum_step s.n m (digitAt s.perm)
    (digitAt (swapAdj s.perm (posIn s.perm m - 1))) hmn
    (fun v hv => sneg_digit_lt hInv hmn hd1 hmtop hv)
    (sneg_digit_m hInv hmn hd1 hmtop)
    (fun v h1 h2 => sneg_digit_gt hInv hmn hd1 hmtop h1 h2)

/-- Symbolic execution of one advance call when the top mobile value `m`
moves left. -/
theorem sneg_exec (hInv : InvRun s) (hInit : s.is_initiated = true)
    (hFin : s.is_finished = false) (hmn : m < s.n) (hd1 : dvalOf s m = -1)
    (hmtop : ∀ v, m < v → v < s.n → dvalOf s v = 0) :
    ∃ dir3 : List Int,
      s.next = some (some (swapAdj s.perm (posIn s.perm m - 1)),
        { s with perm := swapAdj s.perm (posIn s.perm m - 1), direction := dir3 }) ∧
      dir3.length = s.n ∧
      ∀ q, q < s.n →
        dir3.getD q 0 =
          if m < s.perm.getD q 0 then (if q < posIn s.perm m - 1 then 1 else -1)
          else if q = posIn s.perm m - 1 then
            (if posIn s.perm m - 1 = 0 ∨ m < s.perm.getD (posIn s.perm m - 2) 0
              then 0 else -1)
          else if q = posIn s.perm m then s.direction.getD (posIn s.perm m - 1) 0
          else s.direction.getD q 0 := by
  have ht1 : 1 ≤ posIn s.perm m := sneg_ht hInv hmn hd1
  have hposn : posIn s.perm m < s.n := posIn_lt hInv.hperm hmn
  have hplen : s.perm.length = s.n := hInv.plen
  have hdlen : s.direction.length = s.n := hInv.dlen
  have hdt : s.direction.getD (posIn s.perm m) 0 = -1 := hd1
  obtain ⟨rp, hrp, hrplen, hrpget⟩ := inverse_perm_of_perm hInv.hperm
  have hbounds : ∀ j, j < s.n → j < rp.length ∧ rp.getD j 0 < s.direction.length := by
    intro j hj
    exact ⟨by omega, by rw [hrpget j hj, hdlen]; exact posIn_lt hInv.hperm hj⟩
  have hfl : find_loop rp s.direction s.n 0 0 (List.range s.n).reverse =
      some (m, posIn s.perm m, -1) := by
    have h := find_loop_found rp s.direction s.n m s.n 0 0 hmn hbounds
      (fun j hj1 hj2 => by rw [hrpget j hj2]; exact hmtop j hj1 hj2)
      (by rw [hrpget m hmn, hdt]; decide)
    rwa [hrpget m hmn, hdt] at h
  have htl1 : posIn s.perm m < s.perm.length := by omega
  have htl0 : posIn s.perm m - 1 < s.perm.length := by omega
  have hdl1 : posIn s.perm m < s.direction.length := by omega
  have hdl0 : posIn s.perm m - 1 < s.direction.length := by omega
  have e0 : ((posIn s.perm m : Int)).toNat = posIn s.perm m := by omega
  have e1 : ((posIn s.perm m : Int) + (-1)).toNat = posIn s.perm m - 1 := by omega
  have hswp : swapI? s.perm (posIn s.perm m : Int) ((posIn s.perm m : Int) + (-1)) =
      some (swapAdj s.perm (posIn s.perm m - 1)) := by
    rw [swapI?_eq_some_getD s.perm 0 (by omega) (by omega)
      (by omega : ((posIn s.perm m : Int)).toNat < s.perm.length)
      (by omega : ((posIn s.perm m : Int) + (-1)).toNat < s.perm.length)]
    rw [e0, e1]
    rw [List.set_comm _ _ _ (by omega)]
    unfold swapAdj
    have e2 : posIn s.perm m - 1 + 1 = posIn s.perm m := by omega
    rw [e2]
  have hswd : swapI? s.direction (posIn s.perm m : Int) ((posIn s.perm m : Int) + (-1)) =
      some ((s.direction.set (posIn s.perm m - 1)
          (s.direction.getD (posIn s.perm m) 0)).set (posIn s.perm m)
          (s.direction.getD (posIn s.perm m - 1) 0)) := by
    rw [swapI?_eq_some_getD s.direction 0 (by omega) (by omega)
      (by omega : ((posIn s.perm m : Int)).toNat < s.direction.length)
      (by omega : ((posIn s.perm m : Int) + (-1)).toNat < s.direction.length)]
    rw [e0, e1]
    rw [List.set_comm _ _ _ (by omega)]
  set dir1 : List Int := (s.direction.set (posIn s.perm m - 1)
      (s.direction.getD (posIn s.perm m) 0)).set (posIn s.perm m)
      (s.direction.getD (posIn s.perm m - 1) 0) with hdir1def
  have hdir1len : dir1.length = s.n := by
    rw [hdir1def]
    simp [hdlen]
  have hdir1_t1 : dir1.getD (posIn s.perm m) 0 = s.direction.getD (posIn s.perm m - 1) 0 := by
    rw [hdir1def]
    exact swap_getD_right _ _ hdl1 _ _ _
  have hdir1_t : dir1.getD (posIn s.perm m - 1) 0 = s.direction.getD (posIn s.perm m) 0 := by
    rw [hdir1def]
    exact swap_getD_left _ (by omega) hdl0 _ _ _
  have hdir1_o : ∀ q, q ≠ posIn s.perm m - 1 → q ≠ posIn s.perm m →
      dir1.getD q 0 = s.direction.getD q 0 := by
    intro q h1 h2
    rw [hdir1def]
    exact swap_getD_other _ h1 h2 _ _ _
  have hupdb : ∀ dir2 : List Int, dir2.length = s.n →
      ∀ j ∈ List.range' (m + 1) (s.n - (m + 1)), j < rp.length ∧ rp.getD j 0 < dir2.length := by
    intro dir2 hlen2 j hjmem
    rw [List.mem_range'_1] at hjmem
    have hjn : j < s.n := by omega
    refine ⟨by omega, ?_⟩
    rw [hrpget j hjn, hlen2]
    exact posIn_lt hInv.hperm hjn
  obtain ⟨d3set, hupdSet, hlenSet, hgetSet⟩ := update_loop_spec rp
    ((posIn s.perm m : Int) + (-1))
    (List.range' (m + 1) (s.n - (m + 1))) (dir1.set (posIn s.perm m - 1) 0)
    (hupdb _ (by simp [hdir1len]))
  obtain ⟨d3id, hupdId, hlenId, hgetId⟩ := update_loop_spec rp
    ((posIn s.perm m : Int) + (-1))
    (List.range' (m + 1) (s.n - (m + 1))) dir1 (hupdb _ hdir1len)
  have hjs : ∀ q, q < s.n →
      ((∃ j ∈ List.range' (m + 1) (s.n - (m + 1)), rp.getD j 0 = q) ↔ m < s.perm.getD q 0) := by
    intro q hq
    constructor
    · rintro ⟨j, hjmem, hjq⟩
      rw [List.mem_range'_1] at hjmem
      have hjn : j < s.n := by omega
      rw [hrpget j hjn] at hjq
      have := getD_posIn hInv.hperm hjn
      rw [hjq] at this
      omega
    · intro hbig
      refine ⟨s.perm.getD q 0, ?_, ?_⟩
      · rw [List.mem_range'_1]
        have := getD_lt hInv.hperm hq
        omega
      · rw [hrpget _ (getD_lt hInv.hperm hq)]
        exact posIn_getD hInv.hperm hq
  have hpointSet : (posIn s.perm m - 1 = 0 ∨ m < s.perm.getD (posIn s.perm m - 2) 0) →
      ∀ q, q < s.n → d3set.getD q 0 =
        if m < s.perm.getD q 0 then (if q < posIn s.perm m - 1 then 1 else -1)
        else if q = posIn s.perm m - 1 then
          (if posIn s.perm m - 1 = 0 ∨ m < s.perm.getD (posIn s.perm m - 2) 0
            then 0 else -1)
        else if q = posIn s.perm m then s.direction.getD (posIn s.perm m - 1) 0
        else s.direction.getD q 0 := by
    intro hsc q hq
    rw [hgetSet q]
    by_cases hbig : m < s.perm.getD q 0
    · rw [if_pos ((hjs q hq).2 hbig), if_pos hbig,
        if_congr (show ((q : Int) < (posIn s.perm m : Int) + (-1)) ↔ q < posIn s.perm m - 1
          by omega) rfl rfl]
    · rw [if_neg (fun hc => hbig ((hjs q hq).1 hc)), if_neg hbig]
      by_cases hq1 : q = posIn s.perm m - 1
      · subst hq1
        rw [getD_set_self _ (by omega), if_pos rfl, if_pos hsc]
      · rw [getD_set_ne _ (fun he => hq1 he.symm), if_neg hq1]
        by_cases hq0 : q = posIn s.perm m
        · subst hq0
          rw [hdir1_t1, if_pos rfl]
        · rw [hdir1_o q hq1 hq0, if_neg hq0]
  have hpointId : ¬(posIn s.perm m - 1 = 0 ∨ m < s.perm.getD (posIn s.perm m - 2) 0) →
      ∀ q, q < s.n → d3id.getD q 0 =
        if m < s.perm.getD q 0 then (if q < posIn s.perm m - 1 then 1 else -1)
        else if q = posIn s.perm m - 1 then
          (if posIn s.perm m - 1 = 0 ∨ m < s.perm.getD (posIn s.perm m - 2) 0
            then 0 else -1)
        else if q = posIn s.perm m then s.direction.getD (posIn s.perm m - 1) 0
        else s.direction.getD q 0 := by
    intro hsc q hq
    rw [hgetId q]
    by_cases hbig : m < s.perm.getD q 0
    · rw [if_pos ((hjs q hq).2 hbig), if_pos hbig,
        if_congr (show ((q : Int) < (posIn s.perm m : Int) + (-1)) ↔ q < posIn s.perm m - 1
          by omega) rfl rfl]
    · rw [if_neg (fun hc => hbig ((hjs q hq).1 hc)), if_neg hbig]
      by_cases hq1 : q = posIn s.perm m - 1
      · subst hq1
        rw [hdir1_t, hdt, if_pos rfl, if_neg hsc]
      · rw [if_neg hq1]
        by_cases hq0 : q = posIn s.perm m
        · subst hq0
          rw [hdir1_t1, if_pos rfl]
        · rw [hdir1_o q hq1 hq0, if_neg hq0]
  unfold Permutations.next
  rw [hInit, hFin]
  rw [if_neg (show ¬(true = false) by simp), if_neg (show ¬(false = true) by simp)]
  rw [hrp]
  dsimp only
  rw [hfl]
  dsimp only
  rw [if_neg (show ¬(m = s.n) by omega)]
  rw [hswp]
  dsimp only
  rw [hswd]
  dsimp only
  by_cases hzero : posIn s.perm m - 1 = 0
  · rw [if_pos (show (posIn s.perm m : Int) + (-1) = 0 by omega)]
    dsimp only
    rw [if_pos rfl]
    have hsetI : setI? dir1 ((posIn s.perm m : Int) + (-1)) 0
        = some (dir1.set (posIn s.perm m - 1) 0) := by
      unfold setI? set?
      rw [if_pos (show (0 : Int) ≤ (posIn s.perm m : Int) + (-1) by omega)]
      rw [if_pos (show ((posIn s.perm m : Int) + (-1)).toNat < dir1.length by
        rw [hdir1len]; omega)]
      rw [e1]
    rw [hsetI]
    dsimp only
    rw [hupdSet]
    dsimp only
    exact ⟨d3set, rfl, by rw [hlenSet]; simp [hdir1len],
      hpointSet (Or.inl hzero)⟩
  · rw [if_neg (show ¬((posIn s.perm m : Int) + (-1) = 0) by omega)]
    rw [if_neg (show ¬((posIn s.perm m : Int) + (-1) = (s.n : Int) - 1) by omega)]
    have hgetI : getI? (swapAdj s.perm (posIn s.perm m - 1))
        ((posIn s.perm m : Int) + (-1) + (-1))
        = some (s.perm.getD (posIn s.perm m - 2) 0) := by
      have hb2 : posIn s.perm m - 2 < s.n := by omega
      have e2 : ((posIn s.perm m : Int) + (-1) + (-1)).toNat = posIn s.perm m - 2 := by omega
      rw [getI?_eq_some_getElem _ (by omega)
        (by rw [e2, swapAdj_length, hplen]; omega)]
      rw [← getD_eq_getElem _ (by rw [swapAdj_length, hplen]; omega : ((posIn s.perm m : Int) + (-1) + (-1)).toNat < (swapAdj s.perm (posIn s.perm m - 1)).length) 0]
      rw [e2]
      congr 1
      apply swapAdj_getD_other <;> omega
    rw [hgetI]
    dsimp only
    by_cases hy : m < s.perm.getD (posIn s.perm m - 2) 0
    · rw [if_pos (decide_eq_true hy)]
      have hsetI : setI? dir1 ((posIn s.perm m : Int) + (-1)) 0
          = some (dir1.set (posIn s.perm m - 1) 0) := by
        unfold setI? set?
        rw [if_pos (show (0 : Int) ≤ (posIn s.perm m : Int) + (-1) by omega)]
        rw [if_pos (show ((posIn s.perm m : Int) + (-1)).toNat < dir1.length by
          rw [hdir1len]; omega)]
        rw [e1]
      rw [hsetI]
      dsimp only
      rw [hupdSet]
      dsimp only
      exact ⟨d3set, rfl, by rw [hlenSet]; simp [hdir1len],
        hpointSet (Or.inr hy)⟩
    · rw [if_neg (show ¬(decide (m < s.perm.getD (posIn s.perm m - 2) 0) = true) by
        rw [decide_eq_false hy]; simp)]
      dsimp only
      rw [hupdId]
      dsimp only
      exact ⟨d3id, rfl, by rw [hlenId, hdir1len],
        hpointId (by tauto)⟩

/-- A full SJT step in the moving-left case. -/
theorem sneg_stepfacts (hInv : InvRun s) (hInit : s.is_initiated = true)
    (hFin : s.is_finished = false) (hmn : m < s.n) (hd1 : dvalOf s m = -1)
    (hmtop : ∀ v, m < v → v < s.n → dvalOf s v = 0) :
    ∃ s', StepFacts s m s' := by
  obtain ⟨dir3, hnext, hlen3, hdesc⟩ := sneg_exec hInv hInit hFin hmn hd1 hmtop
  have ht1 : 1 ≤ posIn s.perm m := sneg_ht hInv hmn hd1
  have hposn : posIn s.perm m < s.n := posIn_lt hInv.hperm hmn
  have h0 : 0 < m := hInv.mobile_pos (by rw [hd1]; decide)
  have hgdt : s.perm.getD (posIn s.perm m) 0 = m := getD_posIn hInv.hperm hmn
  have hw : s.perm.getD (posIn s.perm m - 1) 0 < m := sneg_hw hInv hmn hd1 hmtop
  have hwn : s.perm.getD (posIn s.perm m - 1) 0 < s.n := getD_lt hInv.hperm (by omega)
  have hposw : posIn s.perm (s.perm.getD (posIn s.perm m - 1) 0) = posIn s.perm m - 1 :=
    posIn_getD hInv.hperm (by omega)
  have hp2 : (swapAdj s.perm (posIn s.perm m - 1)).Perm (List.range s.n) :=
    swapAdj_is_perm hInv.hperm (by omega)
  have hpos2m : posIn (swapAdj s.perm (posIn s.perm m - 1)) m = posIn s.perm m - 1 :=
    sneg_pos2_m hInv hmn hd1
  have hpos2w : posIn (swapAdj s.perm (posIn s.perm m - 1))
      (s.perm.getD (posIn s.perm m - 1) 0) = posIn s.perm m :=
    sneg_pos2_w hInv hmn hd1
  have hval_lt : ∀ u, u < m → dir3.getD (posIn (swapAdj s.perm (posIn s.perm m - 1)) u) 0
      = dvalOf s u := by
    intro u hu
    have hun : u < s.n := lt_trans hu hmn
    by_cases huw : u = s.perm.getD (posIn s.perm m - 1) 0
    · subst huw
      rw [hpos2w, hdesc _ (by omega), if_neg (by omega), if_neg (by omega), if_pos rfl]
      unfold dvalOf
      rw [hposw]
    · have hq := sneg_pos2_other hInv hmn hd1 hun (by omega) huw
      rw [hq]
      have hqn : posIn s.perm u < s.n := posIn_lt hInv.hperm hun
      have hgq : s.perm.getD (posIn s.perm u) 0 = u := getD_posIn hInv.hperm hun
      have hq1 : posIn s.perm u ≠ posIn s.perm m - 1 := by
        intro he
        apply huw
        rw [← hgq, he]
      have hq0 : posIn s.perm u ≠ posIn s.perm m := by
        intro he
        have := posIn_inj hInv.hperm hun hmn he
        omega
      rw [hdesc _ hqn, if_neg (by omega), if_neg hq1, if_neg hq0]
      rfl
  have hval_m : dir3.getD (posIn (swapAdj s.perm (posIn s.perm m - 1)) m) 0
      = if posIn s.perm m - 1 = 0 ∨ m < s.perm.getD (posIn s.perm m - 2) 0
        then 0 else -1 := by
    rw [hpos2m, hdesc _ (by omega), if_neg (by omega), if_pos rfl]
  have hval_gt : ∀ u, m < u → u < s.n →
      dir3.getD (posIn (swapAdj s.perm (posIn s.perm m - 1)) u) 0
      = if posIn s.perm u < posIn s.perm m - 1 then 1 else -1 := by
    intro u hmu hun
    have huw : u ≠ s.perm.getD (posIn s.perm m - 1) 0 := by omega
    have hq := sneg_pos2_other hInv hmn hd1 hun (by omega) huw
    rw [hq]
    have hqn : posIn s.perm u < s.n := posIn_lt hInv.hperm hun
    have hgq : s.perm.getD (posIn s.perm u) 0 = u := getD_posIn hInv.hperm hun
    rw [hdesc _ hqn, if_pos (by omega)]
  have hkey : (posIn s.perm m - 1 = 0 ∨ m < s.perm.getD (posIn s.perm m - 2) 0)
      ↔ ellAt (swapAdj s.perm (posIn s.perm m - 1)) m = m := by
    constructor
    · intro hsc
      rw [ellAt_eq_self_iff]
      rcases hsc with hzero | hy
      · intro j hj
        have hjn : j < s.n := lt_trans hj hmn
        have h2 : posIn (swapAdj s.perm (posIn s.perm m - 1)) j
            ≠ posIn (swapAdj s.perm (posIn s.perm m - 1)) m := by
          intro he
          have := posIn_inj hp2 hjn hmn he
          omega
        rw [hpos2m] at h2 ⊢
        omega
      · have hpos2 : 2 ≤ posIn s.perm m := by
          by_contra hc
          have he1 : posIn s.perm m - 2 = posIn s.perm m - 1 := by omega
          rw [he1] at hy
          omega
        have hyn : posIn s.perm m - 2 < s.n := by omega
        have hyv : s.perm.getD (posIn s.perm m - 2) 0 < s.n := getD_lt hInv.hperm hyn
        have hposy : posIn s.perm (s.perm.getD (posIn s.perm m - 2) 0)
            = posIn s.perm m - 2 := posIn_getD hInv.hperm hyn
        have hdy : dvalOf s (s.perm.getD (posIn s.perm m - 2) 0) = 0 := hmtop _ hy hyv
        rcases hInv.settled_sides (by omega) hyv hdy with hside | hside
        · intro j hj
          have hjn : j < s.n := lt_trans hj hmn
          by_cases hjw : j = s.perm.getD (posIn s.perm m - 1) 0
          · subst hjw
            rw [hpos2w, hpos2m]
            omega
          · have hq := sneg_pos2_other hInv hmn hd1 hjn (by omega) hjw
            rw [hq, hpos2m]
            have hjy := hside j (by omega)
            rw [hposy] at hjy
            have hj1 : posIn s.perm j ≠ posIn s.perm m - 1 := by
              intro he
              apply hjw
              rw [← getD_posIn hInv.hperm hjn, he]
            omega
        · exfalso
          have := hside m hy
          rw [hposy] at this
          omega
    · intro hfull
      by_contra hsc
      push_neg at hsc
      obtain ⟨hzero, hy⟩ := hsc
      have hpos2 : 2 ≤ posIn s.perm m := by omega
      have hyn : posIn s.perm m - 2 < s.n := by omega
      have hyv : s.perm.getD (posIn s.perm m - 2) 0 < s.n := getD_lt hInv.hperm hyn
      have hposy : posIn s.perm (s.perm.getD (posIn s.perm m - 2) 0)
          = posIn s.perm m - 2 := posIn_getD hInv.hperm hyn
      have hym : s.perm.getD (posIn s.perm m - 2) 0 ≠ m := by
        intro he
        rw [he] at hposy
        omega
      have hylt : s.perm.getD (posIn s.perm m - 2) 0 < m := by omega
      have hyw : s.perm.getD (posIn s.perm m - 2) 0
          ≠ s.perm.getD (posIn s.perm m - 1) 0 := by
        intro he
        rw [he, hposw] at hposy
        omega
      have hq := sneg_pos2_other hInv hmn hd1 hyv hym hyw
      have hlt : ellAt (swapAdj s.perm (posIn s.perm m - 1)) m < m := by
        rw [ellAt_lt_self_iff hp2 hmn]
        refine ⟨s.perm.getD (posIn s.perm m - 2) 0, hylt, ?_⟩
        rw [hq, hposy, hpos2m]
        omega
      omega
  have hevenm := (hInv.i4m m h0 hmn hd1).1
  have hpsm : psum (swapAdj s.perm (posIn s.perm m - 1)) m = psum s.perm m :=
    sneg_psum_le hInv hmn hd1 hmtop (le_refl m)
  have hellm : ellAt (swapAdj s.perm (posIn s.perm m - 1)) m = ellAt s.perm m + 1 :=
    sneg_ell2_m hInv hmn hd1 hmtop
  refine ⟨{ s with perm := swapAdj s.perm (posIn s.perm m - 1), direction := dir3 },
    hnext, rfl, rfl, rfl, ?_, sneg_rank hInv hmn hd1 hmtop, ?_, ?_, ?_⟩
  · refine ⟨hInv.hn, by rw [swapAdj_length, hInv.plen], hlen3, hp2, ?_, ?_, ?_, ?_, ?_⟩
    · show dir3.getD (posIn (swapAdj s.perm (posIn s.perm m - 1)) 0) 0 = 0
      rw [hval_lt 0 h0]
      exact hInv.d0
    · intro q hq
      show dir3.getD q 0 = -1 ∨ dir3.getD q 0 = 0 ∨ dir3.getD q 0 = 1
      rw [hdesc q hq]
      by_cases h1 : m < s.perm.getD q 0
      · rw [if_pos h1]
        split
        · right; right; rfl
        · left; rfl
      · rw [if_neg h1]
        by_cases h2 : q = posIn s.perm m - 1
        · rw [if_pos h2]
          split
          · right; left; rfl
          · left; rfl
        · rw [if_neg h2]
          by_cases h3 : q = posIn s.perm m
          · rw [if_pos h3]
            exact hInv.dmem _ (by omega)
          · rw [if_neg h3]
            exact hInv.dmem _ hq
    · intro v h0v hv hd
      replace hd : dir3.getD (posIn (swapAdj s.perm (posIn s.perm m - 1)) v) 0 = -1 := hd
      show psum (swapAdj s.perm (posIn s.perm m - 1)) v % 2 = 0
        ∧ ellAt (swapAdj s.perm (posIn s.perm m - 1)) v < v
      rcases Nat.lt_trichotomy v m with hvm | hvm | hvm
      · rw [hval_lt v hvm] at hd
        have := hInv.i4m v h0v hv hd
        rw [sneg_psum_le hInv hmn hd1 hmtop (le_of_lt hvm),
          sneg_ell2_other hInv hmn hd1 hmtop hv (by omega)]
        exact this
      · subst hvm
        rw [hval_m] at hd
        by_cases hsc : posIn s.perm v - 1 = 0 ∨ v < s.perm.getD (posIn s.perm v - 2) 0
        · rw [if_pos hsc] at hd
          exact absurd hd (by decide)
        · refine ⟨by omega, ?_⟩
          have hne := (not_iff_not.2 hkey).1 hsc
          have := ellAt_le (swapAdj s.perm (posIn s.perm v - 1)) v
          omega
      · rw [hval_gt v hvm hv] at hd
        have hdv0 : dvalOf s v = 0 := hmtop v hvm hv
        have hpar := sneg_psum_gt hInv hmn hd1 hmtop hvm (le_of_lt hv)
        have hell := sneg_ell2_other hInv hmn hd1 hmtop hv (by omega)
        rcases hInv.i40 v h0v hv hdv0 with ⟨he, hl⟩ | ⟨ho, hl⟩
        · exfalso
          have hright := (ellAt_eq_self_iff v).1 hl m hvm
          have hvw : v ≠ s.perm.getD (posIn s.perm m - 1) 0 := by omega
          have hv1 : posIn s.perm v ≠ posIn s.perm m - 1 := by
            intro he2
            apply hvw
            rw [← getD_posIn hInv.hperm hv, he2]
          rw [if_pos (by omega)] at hd
          exact absurd hd (by decide)
        · have hleft := (ellAt_eq_zero_iff hInv.hperm hv).1 hl m hvm
          constructor
          · omega
          · rw [hell, hl]
            omega
    · intro v h0v hv hd
      replace hd : dir3.getD (posIn (swapAdj s.perm (posIn s.perm m - 1)) v) 0 = 1 := hd
      show psum (swapAdj s.perm (posIn s.perm m - 1)) v % 2 = 1
        ∧ 0 < ellAt (swapAdj s.perm (posIn s.perm m - 1)) v
      rcases Nat.lt_trichotomy v m with hvm | hvm | hvm
      · rw [hval_lt v hvm] at hd
        have := hInv.i4p v h0v hv hd
        rw [sneg_psum_le hInv hmn hd1 hmtop (le_of_lt hvm),
          sneg_ell2_other hInv hmn hd1 hmtop hv (by omega)]
        exact this
      · subst hvm
        rw [hval_m] at hd
        exfalso
        by_cases hsc : posIn s.perm v - 1 = 0 ∨ v < s.perm.getD (posIn s.perm v - 2) 0
        · rw [if_pos hsc] at hd
          exact absurd hd (by decide)
        · rw [if_neg hsc] at hd
          exact absurd hd (by decide)
      · rw [hval_gt v hvm hv] at hd
        have hdv0 : dvalOf s v = 0 := hmtop v hvm hv
        have hpar := sneg_psum_gt hInv hmn hd1 hmtop hvm (le_of_lt hv)
        have hell := sneg_ell2_other hInv hmn hd1 hmtop hv (by omega)
        rcases hInv.i40 v h0v hv hdv0 with ⟨he, hl⟩ | ⟨ho, hl⟩
        · constructor
          · omega
          · rw [hell, hl]
            omega
        · exfalso
          have hleft := (ellAt_eq_zero_iff hInv.hperm hv).1 hl m hvm
          rw [if_neg (by omega)] at hd
          exact absurd hd (by decide)
    · intro v h0v hv hd
      replace hd : dir3.getD (posIn (swapAdj s.perm (posIn s.perm m - 1)) v) 0 = 0 := hd
      show (psum (swapAdj s.perm (posIn s.perm m - 1)) v % 2 = 0
          ∧ ellAt (swapAdj s.perm (posIn s.perm m - 1)) v = v)
        ∨ (psum (swapAdj s.perm (posIn s.perm m - 1)) v % 2 = 1
          ∧ ellAt (swapAdj s.perm (posIn s.perm m - 1)) v = 0)
      rcases Nat.lt_trichotomy v m with hvm | hvm | hvm
      · rw [hval_lt v hvm] at hd
        have := hInv.i40 v h0v hv hd
        rw [sneg_psum_le hInv hmn hd1 hmtop (le_of_lt hvm),
          sneg_ell2_other hInv hmn hd1 hmtop hv (by omega)]
        exact this
      · subst hvm
        rw [hval_m] at hd
        by_cases hsc : posIn s.perm v - 1 = 0 ∨ v < s.perm.getD (posIn s.perm v - 2) 0
        · left
          refine ⟨by omega, hkey.1 hsc⟩
        · rw [if_neg hsc] at hd
          exact absurd hd (by decide)
      · exfalso
        rw [hval_gt v hvm hv] at hd
        by_cases hpv : posIn s.perm v < posIn s.perm m - 1
        · rw [if_pos hpv] at hd
          exact absurd hd (by decide)
        · rw [if_neg hpv] at hd
          exact absurd hd (by decide)
  · refine ⟨posIn s.perm m - 1, by omega, rfl, Or.inr ⟨hd1, by omega, hpos2m⟩⟩
  · show dir3.getD (posIn (swapAdj s.perm (posIn s.perm m - 1)) m) 0 = 0 ↔ _
    rw [hval_m, hpos2m, hd1]
    by_cases hz : posIn s.perm m - 1 = 0
    · rw [if_pos (Or.inl hz)]
      constructor
      · intro _
        exact Or.inl hz
      · intro _
        rfl
    · have hpos2 : 2 ≤ posIn s.perm m := by omega
      have e2 : (((posIn s.perm m - 1 : Nat) : Int) + (-1)).toNat = posIn s.perm m - 2 := by
        omega
      rw [e2]
      have hgo : (swapAdj s.perm (posIn s.perm m - 1)).getD (posIn s.perm m - 2) 0
          = s.perm.getD (posIn s.perm m - 2) 0 := by
        apply swapAdj_getD_other <;> omega
      rw [hgo]
      have hB : ¬(posIn s.perm m - 1 = s.n - 1) := by omega
      by_cases hsc : posIn s.perm m - 1 = 0 ∨ m < s.perm.getD (posIn s.perm m - 2) 0
      · rw [if_pos hsc]
        constructor
        · intro _
          rcases hsc with h | h
          · exact absurd h hz
          · exact Or.inr (Or.inr h)
        · intro _
          rfl
      · rw [if_neg hsc]
        constructor
        · intro hc
          exact absurd hc (by decide)
        · intro hc
          exfalso
          rcases hc with hc | hc | hc
          · exact hz hc
          · exact hB hc
          · exact hsc (Or.inr hc)
  · intro v hmv hvn
    show dir3.getD (posIn (swapAdj s.perm (posIn s.perm m - 1)) v) 0 = _
    rw [hval_gt v hmv hvn, hpos2m]
    have hvw : v ≠ s.perm.getD (posIn s.perm m - 1) 0 := by omega
    rw [sneg_pos2_other hInv hmn hd1 hvn (by omega) hvw]

end StepPos

/-- One advance call on a running state with top mobile value `m`. -/
theorem next_step {s : Permutations} {m : Nat} (hInv : InvRun s)
    (hInit : s.is_initiated = true) (hFin : s.is_finished = false) (hmn : m < s.n)
    (hmne : dvalOf s m ≠ 0) (hmtop : ∀ v, m < v → v < s.n → dvalOf s v = 0) :
    ∃ s', StepFacts s m s' := by
  rcases hInv.dval_trichotomy hmn with h | h | h
  · exact sneg_stepfacts hInv hInit hFin hmn h hmtop
  · exact absurd h hmne
  · exact spos_stepfacts hInv hInit hFin hmn h hmtop

/-- The first advance call on a fresh state emits the identity permutation
and sets every direction except slot 0 to `-1`. -/
theorem next_fresh (n : Nat) (hn : 0 < n) :
    ∃ d : List Int, (freshState n).next = some (some (List.range n),
      { n := n, perm := List.range n, direction := d,
        is_initiated := true, is_finished := false }) ∧
      d.length = n ∧ d.getD 0 0 = 0 ∧ ∀ i, 1 ≤ i → i < n → d.getD i 0 = -1 := by
  obtain ⟨p, d, hpd, hplen, hdlen, hpget, hdget⟩ := init_loop_spec
    (List.range' 1 (n - 1)) (List.replicate n 0) (List.replicate n (0 : Int))
    (by
      intro j hj
      rw [List.mem_range'_1] at hj
      constructor <;> · rw [List.length_replicate]; omega)
  have hmem : ∀ t, t ∈ List.range' 1 (n - 1) ↔ 1 ≤ t ∧ t < n := by
    intro t
    rw [List.mem_range'_1]
    omega
  have hp : p = List.range n := by
    apply List.ext_getElem (by rw [hplen, List.length_replicate, List.length_range])
    intro i h1 h2
    have hin : i < n := by
      rw [hplen, List.length_replicate] at h1
      exact h1
    rw [← getD_eq_getElem _ h1 0, hpget i, List.getElem_range]
    by_cases hi : 1 ≤ i
    · rw [if_pos ((hmem i).2 ⟨hi, hin⟩)]
    · have hi0 : i = 0 := by omega
      rw [if_neg (fun hc => by have := (hmem i).1 hc; omega), hi0]
      rw [getD_eq_getElem _ (by rw [List.length_replicate]; omega) 0]
      rw [List.getElem_replicate]
  refine ⟨d, ?_, by rw [hdlen, List.length_replicate], ?_, ?_⟩
  · unfold Permutations.next
    show (match init_loop (freshState n).perm (freshState n).direction
        (List.range' 1 ((freshState n).n - 1)) with
      | none => none
      | some (perm, dir) => some (some perm,
          { freshState n with perm := perm, direction := dir, is_initiated := true }))
      = _
    show (match init_loop (List.replicate n 0) (List.replicate n (0 : Int))
        (List.range' 1 (n - 1)) with
      | none => none
      | some (perm, dir) => some (some perm,
          { freshState n with perm := perm, direction := dir, is_initiated := true }))
      = _
    rw [hpd]
    dsimp only
    rw [hp]
    rfl
  · rw [hdget 0, if_neg (fun hc => by have := (hmem 0).1 hc; omega)]
    rw [getD_eq_getElem _ (by rw [List.length_replicate]; omega) 0]
    rw [List.getElem_replicate]
  · intro i h1 h2
    rw [hdget i, if_pos ((hmem i).2 ⟨h1, h2⟩)]

theorem posIn_range {n v : Nat} (hv : v < n) : posIn (List.range n) v = v := by
  have h := posIn_getD (List.Perm.refl (List.range n)) hv
  rwa [getD_eq_getElem _ (by rw [List.length_range]; exact hv) 0, List.getElem_range] at h

theorem ellAt_range {n v : Nat} (hv : v < n) : ellAt (List.range n) v = 0 := by
  rw [ellAt_eq_zero_iff (List.Perm.refl (List.range n)) hv]
  intro j hj
  rw [posIn_range hv, posIn_range (lt_trans hj hv)]
  exact hj

theorem psum_range {n v : Nat} (hv : v ≤ n) : psum (List.range n) v = 0 := by
  unfold psum
  apply Finset.sum_eq_zero
  intro j hj
  rw [Finset.mem_range] at hj
  exact ellAt_range (by omega)

theorem rank_range (n : Nat) : rankP (List.range n) = 0 := by
  unfold rankP
  apply Finset.sum_eq_zero
  intro v hv
  rw [List.length_range] at hv
  rw [Finset.mem_range] at hv
  unfold digitAt
  rw [List.length_range]
  rw [psum_range (le_of_lt hv), ellAt_range hv]
  simp

/-- The state after the first advance call satisfies the running
invariant. -/
theorem initInv (n : Nat) (hn : 0 < n) (d : List Int) (hdlen : d.length = n)
    (hd0 : d.getD 0 0 = 0) (hdi : ∀ i, 1 ≤ i → i < n → d.getD i 0 = -1) :
    InvRun { n := n, perm := List.range n, direction := d,
             is_initiated := true, is_finished := false } := by
  have hdval : ∀ v, v < n → dvalOf { n := n, perm := List.range n, direction := d,
                                     is_initiated := true, is_finished := false } v
      = d.getD v 0 := by
    intro v hv
    unfold dvalOf
    rw [posIn_range hv]
  refine ⟨hn, List.length_range n, hdlen, List.Perm.refl _, ?_, ?_, ?_, ?_, ?_⟩
  · rw [hdval 0 hn]
    exact hd0
  · intro t ht
    by_cases h1 : 1 ≤ t
    · rw [hdi t h1 ht]
      left
      rfl
    · have ht0 : t = 0 := by omega
      rw [ht0, hd0]
      right
      left
      rfl
  · intro v h0v hv hd
    refine ⟨by rw [psum_range (le_of_lt hv)], by rw [ellAt_range hv]; omega⟩
  · intro v h0v hv hd
    rw [hdval v hv, hdi v h0v hv] at hd
    exact absurd hd (by decide)
  · intro v h0v hv hd
    rw [hdval v hv, hdi v h0v hv] at hd
    exact absurd hd (by decide)

/-! ### The run of a generator -/

theorem stepState_eq {s s' : Permutations} {o : Option (List Nat)}
    (h : s.next = some (o, s')) : stepState s = s' := by
  unfold stepState
  rw [h]

theorem stepOut_eq {s s' : Permutations} {o : Option (List Nat)}
    (h : s.next = some (o, s')) : stepOut s = o := by
  unfold stepOut
  rw [h]

theorem digit_of_settled {s : Permutations} (hInv : InvRun s)
    (hall : ∀ v, v < s.n → dvalOf s v = 0) : ∀ v, v < s.n → digitAt s.perm v = v := by
  intro v hv
  rcases Nat.eq_zero_or_pos v with h0 | h0
  · rw [h0, digitAt_zero]
  · rcases hInv.i40 v h0 hv (hall v hv) with ⟨he, hl⟩ | ⟨ho, hl⟩
    · unfold digitAt
      rw [if_pos he]
      exact hl
    · unfold digitAt
      rw [if_neg (by omega), hl]
      omega

theorem mobile_digit_lt {s : Permutations} (hInv : InvRun s) {v : Nat} (hv : v < s.n)
    (hd : dvalOf s v ≠ 0) : digitAt s.perm v < v := by
  have h0 : 0 < v := hInv.mobile_pos hd
  rcases hInv.dval_trichotomy hv with h | h | h
  · obtain ⟨he, hl⟩ := hInv.i4m v h0 hv h
    unfold digitAt
    rw [if_pos he]
    exact hl
  · exact absurd h hd
  · obtain ⟨ho, hl⟩ := hInv.i4p v h0 hv h
    unfold digitAt
    rw [if_neg (by omega)]
    omega

/-- Extraction of the largest mobile value. -/
theorem top_mobile {s : Permutations} (hex : ∃ v, v < s.n ∧ dvalOf s v ≠ 0) :
    ∃ m, m < s.n ∧ dvalOf s m ≠ 0 ∧ ∀ v, m < v → v < s.n → dvalOf s v = 0 := by
  classical
  obtain ⟨v0, hv0, hd0⟩ := hex
  have hne : ((Finset.range s.n).filter (fun v => dvalOf s v ≠ 0)).Nonempty :=
    ⟨v0, Finset.mem_filter.2 ⟨Finset.mem_range.2 hv0, hd0⟩⟩
  have hmem := Finset.max'_mem _ hne
  rw [Finset.mem_filter, Finset.mem_range] at hmem
  refine ⟨_, hmem.1, hmem.2, ?_⟩
  intro v hvm hvn
  by_contra hd
  have := Finset.le_max' ((Finset.range s.n).filter (fun v => dvalOf s v ≠ 0)) v
    (Finset.mem_filter.2 ⟨Finset.mem_range.2 hvn, hd⟩)
  omega

/-- The master induction along a run: after `k + 1` calls (for `k < n!`)
the state is running, satisfies the invariant, has Gray rank `k`, and the
`k`-th output was its permutation. -/
theorem run_master (n : Nat) (hn : 0 < n) :
    ∀ k, k < Nat.factorial n →
    InvRun (runState (freshState n) (k + 1)) ∧
    (runState (freshState n) (k + 1)).n = n ∧
    (runState (freshState n) (k + 1)).is_initiated = true ∧
    (runState (freshState n) (k + 1)).is_finished = false ∧
    rankP (runState (freshState n) (k + 1)).perm = k ∧
    runOut (freshState n) k = some ((runState (freshState n) (k + 1)).perm)
  | 0, _ => by
    obtain ⟨d, hnext, hdlen, hd0, hdi⟩ := next_fresh n hn
    have hstep : runState (freshState n) 1
        = { n := n, perm := List.range n, direction := d,
            is_initiated := true, is_finished := false } := by
      show stepState (runState (freshState n) 0) = _
      show stepState (freshState n) = _
      exact stepState_eq hnext
    rw [hstep]
    refine ⟨initInv n hn d hdlen hd0 hdi, rfl, rfl, rfl, rank_range n, ?_⟩
    show stepOut (freshState n) = _
    rw [stepOut_eq hnext]
  | k + 1, hk => by
    obtain ⟨hInv, hsn, hsi, hsf, hrank, hout⟩ := run_master n hn k (by omega)
    have hex : ∃ v, v < (runState (freshState n) (k + 1)).n
        ∧ dvalOf (runState (freshState n) (k + 1)) v ≠ 0 := by
      by_contra hc
      push_neg at hc
      have hdig := digit_of_settled hInv hc
      have hmax := rank_all_max hInv.plen (by rw [hsn]; exact hn) hdig
      rw [hrank, hsn] at hmax
      omega
    obtain ⟨m, hmn, hmne, hmtop⟩ := top_mobile hex
    obtain ⟨s', hsf'⟩ := next_step hInv hsi hsf hmn hmne hmtop
    have hstep : runState (freshState n) (k + 2) = s' := by
      show stepState (runState (freshState n) (k + 1)) = s'
      exact stepState_eq hsf'.hnext
    rw [hstep]
    refine ⟨hsf'.hInv, by rw [hsf'.hn, hsn], by rw [hsf'.hinit, hsi],
      by rw [hsf'.hfin, hsf], by rw [hsf'.hrank, hrank], ?_⟩
    show stepOut (runState (freshState n) (k + 1)) = _
    rw [stepOut_eq hsf'.hnext]

/-- After the last production the generator marks itself finished. -/
theorem run_exhaust (n : Nat) (hn : 0 < n) :
    runOut (freshState n) (Nat.factorial n) = none ∧
    runState (freshState n) (Nat.factorial n + 1) =
      { runState (freshState n) (Nat.factorial n) with is_finished := true } := by
  obtain ⟨hInv, hsn, hsi, hsf, hrank, _⟩ := run_master n hn (Nat.factorial n - 1)
    (by have := Nat.factorial_pos n; omega)
  have he : Nat.factorial n - 1 + 1 = Nat.factorial n := by
    have := Nat.factorial_pos n
    omega
  rw [he] at hInv hsn hsi hsf hrank
  have hall : ∀ v, v < (runState (freshState n) (Nat.factorial n)).n →
      dvalOf (runState (freshState n) (Nat.factorial n)) v = 0 := by
    intro v hv
    by_contra hd
    have hdig := mobile_digit_lt hInv hv hd
    have hlt := rank_lt_max hInv.plen (by rw [hsn]; exact hn) hv hdig
    rw [hrank, hsn] at hlt
    have := Nat.factorial_pos n
    omega
  have hnx := next_exhaust _ hInv hsi hsf hall
  constructor
  · show stepOut (runState (freshState n) (Nat.factorial n)) = none
    rw [stepOut_eq hnx]
  · show stepState (runState (freshState n) (Nat.factorial n)) = _
    exact stepState_eq hnx

/-- Advancing an already finished (and initiated) generator returns `none`
and leaves the state unchanged. -/
theorem next_finished {s : Permutations} (hInit : s.is_initiated = true)
    (hFin : s.is_finished = true) : s.next = some (none, s) := by
  unfold Permutations.next
  rw [hInit, hFin]
  rw [if_neg (show ¬(true = false) by simp), if_pos rfl]

/-- The invariant carried by every reachable state. -/
def GInv (s : Permutations) : Prop :=
  (0 < s.n ∧ s = freshState s.n) ∨ (s.is_initiated = true ∧ InvRun s)

theorem GInv_fresh (n : Nat) (hn : 0 < n) : GInv (freshState n) :=
  Or.inl ⟨hn, rfl⟩

theorem InvRun_set_finished {s : Permutations} (hInv : InvRun s) :
    InvRun { s with is_finished := true } :=
  ⟨hInv.hn, hInv.plen, hInv.dlen, hInv.hperm, hInv.d0, hInv.dmem,
    hInv.i4m, hInv.i4p, hInv.i40⟩

theorem GInv_step {s : Permutations} (h : GInv s) : GInv (stepState s) := by
  classical
  rcases h with ⟨hn, hs⟩ | ⟨hInit, hInv⟩
  · rw [hs]
    obtain ⟨d, hnext, hdlen, hd0, hdi⟩ := next_fresh s.n hn
    rw [stepState_eq hnext]
    exact Or.inr ⟨rfl, initInv s.n hn d hdlen hd0 hdi⟩
  · by_cases hFin : s.is_finished = true
    · rw [stepState_eq (next_finished hInit hFin)]
      exact Or.inr ⟨hInit, hInv⟩
    · have hFin' : s.is_finished = false := by
        rcases Bool.eq_false_or_eq_true s.is_finished with h | h
        · exact absurd h hFin
        · exact h
      by_cases hall : ∀ v, v < s.n → dvalOf s v = 0
      · rw [stepState_eq (next_exhaust s hInv hInit hFin' hall)]
        exact Or.inr ⟨hInit, InvRun_set_finished hInv⟩
      · push_neg at hall
        obtain ⟨v0, hv0, hd0⟩ := hall
        obtain ⟨m, hmn, hmne, hmtop⟩ := top_mobile ⟨v0, hv0, hd0⟩
        obtain ⟨s', hsf'⟩ := next_step hInv hInit hFin' hmn hmne hmtop
        rw [stepState_eq hsf'.hnext]
        exact Or.inr ⟨by rw [hsf'.hinit]; exact hInit, hsf'.hInv⟩

theorem reachable_GInv {s : Permutations} (h : Reachable s) : GInv s := by
  obtain ⟨n, k, hn, hrun⟩ := h
  rw [← hrun]
  clear hrun
  induction k with
  | zero => exact GInv_fresh n hn
  | succ k ih => exact GInv_step ih

/-- From call number `n! + 1` on, the generator only reports exhaustion,
with the state frozen at the finished state. -/
theorem run_none (n : Nat) (hn : 0 < n) : ∀ d : Nat,
    runOut (freshState n) (Nat.factorial n + d) = none ∧
    runState (freshState n) (Nat.factorial n + d + 1) =
      { runState (freshState n) (Nat.factorial n) with is_finished := true }
  | 0 => run_exhaust n hn
  | d + 1 => by
    obtain ⟨hout, hstate⟩ := run_none n hn d
    obtain ⟨hInv, hsn, hsi, hsf, hrank, _⟩ := run_master n hn (Nat.factorial n - 1)
      (by have := Nat.factorial_pos n; omega)
    have he : Nat.factorial n - 1 + 1 = Nat.factorial n := by
      have := Nat.factorial_pos n
      omega
    rw [he] at hsi
    have hinit' : (runState (freshState n) (Nat.factorial n + d + 1)).is_initiated = true := by
      rw [hstate]
      exact hsi
    have hfin' : (runState (freshState n) (Nat.factorial n + d + 1)).is_finished = true := by
      rw [hstate]
    have hnx := next_finished hinit' hfin'
    constructor
    · show stepOut (runState (freshState n) (Nat.factorial n + (d + 1))) = none
      have e : Nat.factorial n + (d + 1) = Nat.factorial n + d + 1 := by omega
      rw [e, stepOut_eq hnx]
    · show stepState (runState (freshState n) (Nat.factorial n + (d + 1))) = _
      have e : Nat.factorial n + (d + 1) = Nat.factorial n + d + 1 := by omega
      rw [e, stepState_eq hnx, hstate]

theorem runOut_none_of_le (n : Nat) (hn : 0 < n) {k : Nat} (hk : Nat.factorial n ≤ k) :
    runOut (freshState n) k = none := by
  have e : k = Nat.factorial n + (k - Nat.factorial n) := by omega
  rw [e]
  exact (run_none n hn (k - Nat.factorial n)).1

theorem runOut_some_lt (n : Nat) (hn : 0 < n) {k : Nat} {p : List Nat}
    (h : runOut (freshState n) k = some p) : k < Nat.factorial n := by
  by_contra hc
  rw [runOut_none_of_le n hn (by omega)] at h
  exact Option.noConfusion h

/-! ### Distinctness and coverage of the produced outputs -/

theorem run_distinct (n : Nat) (hn : 0 < n) {k j : Nat} (hk : k < Nat.factorial n)
    (hj : j < Nat.factorial n)
    (h : (runState (freshState n) (k + 1)).perm = (runState (freshState n) (j + 1)).perm) :
    k = j := by
  have h1 := (run_master n hn k hk).2.2.2.2.1
  have h2 := (run_master n hn j hj).2.2.2.2.1
  rw [h] at h1
  rw [h2] at h1
  omega

theorem run_coverage (n : Nat) (hn : 0 < n) {p : List Nat} (hp : p.Perm (List.range n)) :
    ∃ k, k < Nat.factorial n ∧ runOut (freshState n) k = some p := by
  classical
  have hmemL : ∀ x ∈ (List.range (Nat.factorial n)).map
      (fun k => (runState (freshState n) (k + 1)).perm), x ∈ (List.range n).permutations := by
    intro x hx
    rw [List.mem_map] at hx
    obtain ⟨k, hk, rfl⟩ := hx
    rw [List.mem_range] at hk
    obtain ⟨hInv, hsn, _, _, _, _⟩ := run_master n hn k hk
    rw [List.mem_permutations]
    have h := hInv.hperm
    rwa [hsn] at h
  have hnd : ((List.range (Nat.factorial n)).map
      (fun k => (runState (freshState n) (k + 1)).perm)).Nodup := by
    refine (List.nodup_map_iff_inj_on (List.nodup_range _)).mpr ?_
    intro k hk j hj h
    rw [List.mem_range] at hk hj
    exact run_distinct n hn hk hj h
  have hsp := List.subperm_of_subset hnd hmemL
  have hlen : ((List.range (Nat.factorial n)).map
      (fun k => (runState (freshState n) (k + 1)).perm)).length = Nat.factorial n := by
    rw [List.length_map, List.length_range]
  have hlen2 : (List.range n).permutations.length = Nat.factorial n := by
    rw [List.length_permutations, List.length_range]
  have hpermL := List.Subperm.perm_of_length_le hsp (le_of_eq (hlen2.trans hlen.symm))
  have hmem : p ∈ (List.range (Nat.factorial n)).map
      (fun k => (runState (freshState n) (k + 1)).perm) :=
    hpermL.mem_iff.2 (List.mem_permutations.2 hp)
  rw [List.mem_map] at hmem
  obtain ⟨k, hk, hkp⟩ := hmem
  rw [List.mem_range] at hk
  refine ⟨k, hk, ?_⟩
  have hout := (run_master n hn k hk).2.2.2.2.2
  rw [hout, hkp]

/-! ### The claims -/

/-- C1: for every `n > 0` the generator emits an output on each of the first
`n!` advance calls and nothing afterwards; each output is a rearrangement of
`0..n-1`, distinct calls emit distinct outputs, and every rearrangement of
`0..n-1` is emitted by some call among the first `n!`. -/
theorem C1_exact_enumeration (n : Nat) (hn : 0 < n) :
    (∀ k, k < Nat.factorial n → ∃ p, runOut (freshState n) k = some p ∧
      p.Perm (List.range n)) ∧
    (∀ k, Nat.factorial n ≤ k → runOut (freshState n) k = none) ∧
    (∀ k j, k < Nat.factorial n → j < Nat.factorial n → k ≠ j →
      runOut (freshState n) k ≠ runOut (freshState n) j) ∧
    (∀ p : List Nat, p.Perm (List.range n) →
      ∃ k, k < Nat.factorial n ∧ runOut (freshState n) k = some p) := by
  refine ⟨?_, ?_, ?_, ?_⟩
  · intro k hk
    obtain ⟨hInv, hsn, _, _, _, hout⟩ := run_master n hn k hk
    have h := hInv.hperm
    rw [hsn] at h
    exact ⟨_, hout, h⟩
  · intro k hk
    exact runOut_none_of_le n hn hk
  · intro k j hk hj hne heq
    obtain ⟨_, _, _, _, hr1, ho1⟩ := run_master n hn k hk
    obtain ⟨_, _, _, _, hr2, ho2⟩ := run_master n hn j hj
    rw [ho1, ho2] at heq
    have hpe := Option.some.inj heq
    rw [hpe] at hr1
    rw [hr2] at hr1
    exact hne hr1.symm
  · intro p hp
    exact run_coverage n hn hp

theorem C1_witness : ∃ k, k < Nat.factorial 2 ∧ runOut (freshState 2) k = some [1, 0] :=
  (C1_exact_enumeration 2 (by decide)).2.2.2 [1, 0] (by decide)

/-- C2: any two consecutive outputs differ by exactly one adjacent
transposition: a pair of adjacent positions whose (distinct) values are
exchanged, every other position unchanged. -/
theorem C2_adjacent_swap (n k : Nat) (p q : List Nat) (hn : 0 < n)
    (hp : runOut (freshState n) k = some p)
    (hq : runOut (freshState n) (k + 1) = some q) :
    ∃ t, t + 1 < n ∧ q.getD t 0 = p.getD (t + 1) 0 ∧ q.getD (t + 1) 0 = p.getD t 0 ∧
      p.getD t 0 ≠ p.getD (t + 1) 0 ∧
      ∀ u, u ≠ t → u ≠ t + 1 → q.getD u 0 = p.getD u 0 := by
  have hk : k < Nat.factorial n := runOut_some_lt n hn hp
  obtain ⟨hInv, hsn, hsi, hsf, hrank, hout⟩ := run_master n hn k hk
  rw [hp] at hout
  have hpe := Option.some.inj hout
  have hq2 : stepOut (runState (freshState n) (k + 1)) = some q := hq
  by_cases hall : ∀ v, v < (runState (freshState n) (k + 1)).n →
      dvalOf (runState (freshState n) (k + 1)) v = 0
  · rw [stepOut_eq (next_exhaust _ hInv hsi hsf hall)] at hq2
    exact absurd hq2 (by simp)
  · push_neg at hall
    obtain ⟨m2, hm2n, hm2d⟩ := hall
    obtain ⟨m, h1, h2, h3⟩ := top_mobile ⟨m2, hm2n, hm2d⟩
    obtain ⟨s2, sf⟩ := next_step hInv hsi hsf h1 h2 h3
    rw [stepOut_eq sf.hnext] at hq2
    have hqe := Option.some.inj hq2
    obtain ⟨t, htn, hsw, _⟩ := sf.hswap
    rw [hsn] at htn
    have hplen : (runState (freshState n) (k + 1)).perm.length = n := by
      rw [hInv.plen, hsn]
    have hpermn : (runState (freshState n) (k + 1)).perm.Perm (List.range n) := by
      have h := hInv.hperm
      rwa [hsn] at h
    refine ⟨t, htn, ?_, ?_, ?_, ?_⟩
    · rw [← hqe, hsw, hpe]
      exact swapAdj_getD_fst (by rw [hplen]; exact htn)
    · rw [← hqe, hsw, hpe]
      exact swapAdj_getD_snd (by rw [hplen]; exact htn)
    · rw [hpe]
      intro he
      have e1 : posIn (runState (freshState n) (k + 1)).perm
          ((runState (freshState n) (k + 1)).perm.getD t 0) = t :=
        posIn_getD hpermn (by omega)
      have e2 : posIn (runState (freshState n) (k + 1)).perm
          ((runState (freshState n) (k + 1)).perm.getD (t + 1) 0) = t + 1 :=
        posIn_getD hpermn htn
      rw [he] at e1
      rw [e2] at e1
      omega
    · intro u hu1 hu2
      rw [← hqe, hsw, hpe]
      exact swapAdj_getD_other hu1 hu2

theorem C2_witness : ∃ t, t + 1 < 3 ∧
    ([2, 0, 1] : List Nat).getD t 0 = ([0, 2, 1] : List Nat).getD (t + 1) 0 ∧
    ([2, 0, 1] : List Nat).getD (t + 1) 0 = ([0, 2, 1] : List Nat).getD t 0 ∧
    ([0, 2, 1] : List Nat).getD t 0 ≠ ([0, 2, 1] : List Nat).getD (t + 1) 0 ∧
    ∀ u, u ≠ t → u ≠ t + 1 →
      ([2, 0, 1] : List Nat).getD u 0 = ([0, 2, 1] : List Nat).getD u 0 :=
  C2_adjacent_swap 3 1 [0, 2, 1] [2, 0, 1] (by decide) (by decide) (by decide)

/-- C3: when the advance call moves the top mobile value `m` from its
position by its direction, the updated direction slot of `m` is `0` exactly
when `m` landed on a boundary or its next neighbor in the travel direction
is larger, and every value above `m` gets direction `+1` at positions left
of `m`'s landing spot and `-1` otherwise. -/
theorem C3_direction_rules (s : Permutations) (m : Nat) (hreach : Reachable s)
    (hinit : s.is_initiated = true) (hfin : s.is_finished = false)
    (hmn : m < s.n) (hmne : dvalOf s m ≠ 0)
    (hmtop : ∀ v, m < v → v < s.n → dvalOf s v = 0) :
    ∃ s2, s.next = some (some s2.perm, s2) ∧
      (posIn s2.perm m : Int) = (posIn s.perm m : Int) + dvalOf s m ∧
      (s2.direction.getD (posIn s2.perm m) 0 = 0 ↔
        (posIn s2.perm m = 0 ∨ posIn s2.perm m = s.n - 1 ∨
          m < s2.perm.getD ((posIn s2.perm m : Int) + dvalOf s m).toNat 0)) ∧
      (∀ v, m < v → v < s.n → s2.direction.getD (posIn s2.perm v) 0 =
        if posIn s2.perm v < posIn s2.perm m then 1 else -1) := by
  have hInv : InvRun s := by
    rcases reachable_GInv hreach with ⟨_, hs⟩ | ⟨_, hI⟩
    · rw [hs] at hinit
      simp [freshState] at hinit
    · exact hI
  obtain ⟨s2, sf⟩ := next_step hInv hinit hfin hmn hmne hmtop
  refine ⟨s2, sf.hnext, ?_, sf.hsettle, sf.hupdate⟩
  rcases sf.hswap with ⟨t, htn, _, ⟨hd, hpos, hpos2⟩ | ⟨hd, hpos, hpos2⟩⟩ <;>
    rw [hpos, hpos2, hd] <;> push_cast <;> ring

theorem C3_witness : ∃ s2, (runState (freshState 2) 1).next = some (some s2.perm, s2) ∧
    (posIn s2.perm 1 : Int) = (posIn (runState (freshState 2) 1).perm 1 : Int) +
      dvalOf (runState (freshState 2) 1) 1 ∧
    (s2.direction.getD (posIn s2.perm 1) 0 = 0 ↔
      (posIn s2.perm 1 = 0 ∨ posIn s2.perm 1 = (runState (freshState 2) 1).n - 1 ∨
        1 < s2.perm.getD ((posIn s2.perm 1 : Int) +
          dvalOf (runState (freshState 2) 1) 1).toNat 0)) ∧
    (∀ v, 1 < v → v < (runState (freshState 2) 1).n →
      s2.direction.getD (posIn s2.perm v) 0 =
        if posIn s2.perm v < posIn s2.perm 1 then 1 else -1) :=
  C3_direction_rules (runState (freshState 2) 1) 1 ⟨2, 1, by decide, rfl⟩ (by decide)
    (by decide) (by decide) (by decide)
    (fun v h1 h2 => absurd h2 (by
      have h3 : (runState (freshState 2) 1).n = 2 := by decide
      omega))

/-- C4: whenever the advance call finds the top mobile value, the move
target `pos + dir` lies inside `0..n`, the settlement probe
`pos + dir + dir` lies inside `0..n` whenever the boundary short-circuits
fail, and the advance call on any reachable state returns (never fails). -/
theorem C4_arith_safe (s : Permutations) (m : Nat) (hreach : Reachable s)
    (hinit : s.is_initiated = true) (hfin : s.is_finished = false)
    (hmn : m < s.n) (hmne : dvalOf s m ≠ 0)
    (hmtop : ∀ v, m < v → v < s.n → dvalOf s v = 0) :
    (0 ≤ (posIn s.perm m : Int) + dvalOf s m ∧
      (posIn s.perm m : Int) + dvalOf s m < (s.n : Int)) ∧
    ((posIn s.perm m : Int) + dvalOf s m ≠ 0 →
      (posIn s.perm m : Int) + dvalOf s m ≠ (s.n : Int) - 1 →
      0 ≤ (posIn s.perm m : Int) + dvalOf s m + dvalOf s m ∧
        (posIn s.perm m : Int) + dvalOf s m + dvalOf s m < (s.n : Int)) ∧
    (∀ s2, Reachable s2 → (Permutations.next s2).isSome = true) := by
  have hInv : InvRun s := by
    rcases reachable_GInv hreach with ⟨_, hs⟩ | ⟨_, hI⟩
    · rw [hs] at hinit
      simp [freshState] at hinit
    · exact hI
  have hpn : posIn s.perm m < s.n := posIn_lt hInv.hperm hmn
  have hmain : (0 ≤ (posIn s.perm m : Int) + dvalOf s m ∧
      (posIn s.perm m : Int) + dvalOf s m < (s.n : Int)) ∧
      ((posIn s.perm m : Int) + dvalOf s m ≠ 0 →
        (posIn s.perm m : Int) + dvalOf s m ≠ (s.n : Int) - 1 →
        0 ≤ (posIn s.perm m : Int) + dvalOf s m + dvalOf s m ∧
          (posIn s.perm m : Int) + dvalOf s m + dvalOf s m < (s.n : Int)) := by
    rcases hInv.dval_trichotomy hmn with hd | hd | hd
    · have ht := sneg_ht hInv hmn hd
      rw [hd]
      constructor
      · omega
      · intro h1 h2
        omega
    · exact absurd hd hmne
    · have ht := spos_ht hInv hmn hd
      rw [hd]
      constructor
      · omega
      · intro h1 h2
        omega
  refine ⟨hmain.1, hmain.2, ?_⟩
  intro s2 hr2
  rcases reachable_GInv hr2 with ⟨hn2, hs2⟩ | ⟨hi2, hI2⟩
  · obtain ⟨d, hnx, _, _, _⟩ := next_fresh s2.n hn2
    rw [hs2, hnx]
    rfl
  · by_cases hf : s2.is_finished = true
    · rw [next_finished hi2 hf]
      rfl
    · have hf2 : s2.is_finished = false := by simpa using hf
      by_cases hall : ∀ v, v < s2.n → dvalOf s2 v = 0
      · rw [next_exhaust s2 hI2 hi2 hf2 hall]
        rfl
      · push_neg at hall
        obtain ⟨m2, hm2n, hm2d⟩ := hall
        obtain ⟨m3, h1, h2, h3⟩ := top_mobile ⟨m2, hm2n, hm2d⟩
        obtain ⟨s3, sf⟩ := next_step hI2 hi2 hf2 h1 h2 h3
        rw [sf.hnext]
        rfl

theorem C4_witness :
    (0 ≤ (posIn (runState (freshState 3) 1).perm 2 : Int) +
        dvalOf (runState (freshState 3) 1) 2 ∧
      (posIn (runState (freshState 3) 1).perm 2 : Int) +
        dvalOf (runState (freshState 3) 1) 2 < ((runState (freshState 3) 1).n : Int)) ∧
    ((posIn (runState (freshState 3) 1).perm 2 : Int) +
        dvalOf (runState (freshState 3) 1) 2 ≠ 0 →
      (posIn (runState (freshState 3) 1).perm 2 : Int) +
        dvalOf (runState (freshState 3) 1) 2 ≠ ((runState (freshState 3) 1).n : Int) - 1 →
      0 ≤ (posIn (runState (freshState 3) 1).perm 2 : Int) +
          dvalOf (runState (freshState 3) 1) 2 + dvalOf (runState (freshState 3) 1) 2 ∧
        (posIn (runState (freshState 3) 1).perm 2 : Int) +
          dvalOf (runState (freshState 3) 1) 2 + dvalOf (runState (freshState 3) 1) 2 <
          ((runState (freshState 3) 1).n : Int)) ∧
    (∀ s2, Reachable s2 → (Permutations.next s2).isSome = true) :=
  C4_arith_safe (runState (freshState 3) 1) 2 ⟨3, 1, by decide, rfl⟩ (by decide)
    (by decide) (by decide) (by decide)
    (fun v h1 h2 => absurd h2 (by
      have h3 : (runState (freshState 3) 1).n = 3 := by decide
      omega))

/-- C5: for `n = 3` the generator emits exactly the six permutations
`[0,1,2]`, `[0,2,1]`, `[2,0,1]`, `[2,1,0]`, `[1,2,0]`, `[1,0,2]` in this
order and then reports exhaustion. -/
theorem C5_n3_sequence :
    runOut (freshState 3) 0 = some [0, 1, 2] ∧
    runOut (freshState 3) 1 = some [0, 2, 1] ∧
    runOut (freshState 3) 2 = some [2, 0, 1] ∧
    runOut (freshState 3) 3 = some [2, 1, 0] ∧
    runOut (freshState 3) 4 = some [1, 2, 0] ∧
    runOut (freshState 3) 5 = some [1, 0, 2] ∧
    runOut (freshState 3) 6 = none := by
  refine ⟨?_, ?_, ?_, ?_, ?_, ?_, ?_⟩ <;> rfl

/-- C6: for every `n > 0` construction yields the fresh state, and the
first advance call on it emits the identity permutation `[0, 1, ..., n-1]`
with the resulting direction vector holding `0` at slot 0 and `-1` at
every slot `i ≥ 1`. -/
theorem C6_first_output_identity (n : Nat) (hn : 0 < n) :
    Permutations.of n = some (freshState n) ∧
    ∃ s1, (freshState n).next = some (some (List.range n), s1) ∧
      s1.perm = List.range n ∧ s1.direction.getD 0 0 = 0 ∧
      (∀ i, 1 ≤ i → i < n → s1.direction.getD i 0 = -1) := by
  constructor
  · simp [Permutations.of, freshState, hn]
  · obtain ⟨d, hnx, hdlen, hd0, hdi⟩ := next_fresh n hn
    exact ⟨_, hnx, rfl, hd0, hdi⟩

theorem C6_witness : Permutations.of 2 = some (freshState 2) :=
  (C6_first_output_identity 2 (by decide)).1

/-- C7: once a reachable state is finished, the advance call returns the
exhaustion signal with the state unchanged, and any number of further
advance calls leaves the state fixed while emitting nothing. -/
theorem C7_finished_latch (s : Permutations) (hreach : Reachable s)
    (hfin : s.is_finished = true) :
    s.next = some (none, s) ∧ ∀ k, runState s k = s ∧ runOut s k = none := by
  have hinit : s.is_initiated = true := by
    rcases reachable_GInv hreach with ⟨_, hs⟩ | ⟨hi, _⟩
    · rw [hs] at hfin
      simp [freshState] at hfin
    · exact hi
  have hnx := next_finished hinit hfin
  refine ⟨hnx, ?_⟩
  intro k
  induction k with
  | zero => exact ⟨rfl, stepOut_eq hnx⟩
  | succ k ih =>
    have hst : runState s (k + 1) = s := by
      show stepState (runState s k) = s
      rw [ih.1]
      exact stepState_eq hnx
    refine ⟨hst, ?_⟩
    show stepOut (runState s (k + 1)) = none
    rw [hst]
    exact stepOut_eq hnx

theorem C7_witness :
    (runState (freshState 1) 2).next = some (none, runState (freshState 1) 2) ∧
    ∀ k, runState (runState (freshState 1) 2) k = runState (freshState 1) 2 ∧
      runOut (runState (freshState 1) 2) k = none :=
  C7_finished_latch (runState (freshState 1) 2) ⟨1, 2, by decide, rfl⟩ (by decide)

/-- C8: on a rearrangement `p` of `0..n-1`, `inverse_perm` succeeds with an
output `q` of the same length satisfying `q[p[i]] = i` for every position,
and applying `inverse_perm` again recovers `p`. -/
theorem C8_inverse_contract (p : List Nat) (n : Nat) (hp : p.Perm (List.range n)) :
    ∃ q, inverse_perm p = some q ∧ q.length = p.length ∧
      (∀ i, i < p.length → q.getD (p.getD i 0) 0 = i) ∧
      inverse_perm q = some p := by
  obtain ⟨q, hq, hqlen, hqget⟩ := inverse_perm_of_perm hp
  have hplen : p.length = n := perm_length hp
  have hinv : ∀ i, i < p.length → q.getD (p.getD i 0) 0 = i := by
    intro i hi
    rw [hplen] at hi
    rw [hqget _ (getD_lt hp hi), posIn_getD hp hi]
  refine ⟨q, hq, by rw [hqlen, hplen], hinv, ?_⟩
  have hqmap : q = (List.range n).map (posIn p) := by
    apply List.ext_getElem (by rw [hqlen, List.length_map, List.length_range])
    intro i h1 h2
    have hin : i < n := by
      rw [hqlen] at h1
      exact h1
    rw [List.getElem_map, List.getElem_range]
    have h4 := hqget i hin
    rwa [getD_eq_getElem q (by rw [hqlen]; exact hin) 0] at h4
  have hqperm : q.Perm (List.range n) := by
    have hnd : q.Nodup := by
      rw [hqmap]
      refine (List.nodup_map_iff_inj_on (List.nodup_range n)).mpr ?_
      intro a ha b hb hab
      rw [List.mem_range] at ha hb
      exact posIn_inj hp ha hb hab
    have hsub : q ⊆ List.range n := by
      intro x hx
      rw [hqmap, List.mem_map] at hx
      obtain ⟨a, ha, rfl⟩ := hx
      rw [List.mem_range] at ha
      rw [List.mem_range]
      exact posIn_lt hp ha
    exact (List.subperm_of_subset hnd hsub).perm_of_length_le
      (le_of_eq (by rw [List.length_range, hqlen]))
  obtain ⟨r, hr, hrlen, hrget⟩ := inverse_perm_of_perm hqperm
  have hrp : r = p := by
    apply List.ext_getElem (by rw [hrlen, hplen])
    intro i h1 h2
    have hin : i < n := by
      rw [hrlen] at h1
      exact h1
    have e2 : posIn q i = p.getD i 0 := by
      have h3 := posIn_getD hqperm (getD_lt hp hin)
      rw [hinv i (by rw [hplen]; exact hin)] at h3
      exact h3
    rw [← getD_eq_getElem r h1 0, ← getD_eq_getElem p h2 0, hrget i hin, e2]
  rw [hr, hrp]

theorem C8_witness : ∃ q, inverse_perm [2, 0, 1] = some q ∧
    q.length = ([2, 0, 1] : List Nat).length ∧
    (∀ i, i < ([2, 0, 1] : List Nat).length →
      q.getD (([2, 0, 1] : List Nat).getD i 0) 0 = i) ∧
    inverse_perm q = some [2, 0, 1] :=
  C8_inverse_contract [2, 0, 1] 3 (by decide)

/-- C9: constructing a generator fails exactly when `n = 0`; for every
`n > 0` it succeeds and produces the fresh state. -/
theorem C9_of_contract :
    Permutations.of 0 = none ∧
    ∀ n : Nat, 0 < n → Permutations.of n = some (freshState n) := by
  constructor
  · rfl
  · intro n hn
    simp [Permutations.of, freshState, hn]

theorem C9_witness : Permutations.of 1 = some (freshState 1) :=
  C9_of_contract.2 1 (by decide)

/-- C10: `inverse_perm` succeeds (no out-of-bounds access) on any input
whose entries are all below its length, even with repeated entries, and
the output has the input's length. -/
theorem C10_inverse_total (v : List Nat) (hv : ∀ x ∈ v, x < v.length) :
    ∃ r, inverse_perm v = some r ∧ r.length = v.length :=
  inverse_perm_total hv

theorem C10_witness : ∃ r, inverse_perm [1, 1, 0] = some r ∧
    r.length = ([1, 1, 0] : List Nat).length :=
  C10_inverse_total [1, 1, 0] (by decide)
